import Mathlib

/-!
Verification of the after-read field traversal pipeline
(`src/packages/payload/src/fields/hooks/afterRead/promise.ts`).

The embedding models JavaScript values (`JValue`), the field schema
(`FieldDef` / `FieldTy`), and transcribes the body of `promise` stage
by stage.  `promise.ts` imports `traverseFields` (whose source file is
not among the provided sources), so the transcription `promiseF` is
parametrized by an arbitrary traversal function `tf : TraverseFun`;
the recursive engine `traverseFields` is then modelled from the spec
by tying the knot with a depth bound.

Model boundaries (documented, not exercised by any theorem):
* `JValue.arr` does not carry string-keyed properties (real JS arrays
  may); writing a named property into an array is a no-op here.
* Hooks, access predicates and computed defaults are modelled as pure
  functions of the data they are given; their external side effects
  (and the `await` suspension points) are outside the model, which is
  the deterministic linearization of the sequential hook chain.
* Aliasing inside a document is not modelled: documents are trees.
-/

/-- JavaScript runtime values, as far as `promise.ts` observes them:
`undefined` and `null` are distinct, objects are ordered key/value
lists (JS objects cannot hold duplicate keys; entry lists standing for
JS objects are assumed duplicate-free). -/
inductive JValue : Type where
  | undef : JValue
  | null : JValue
  | bool : Bool → JValue
  | num : Int → JValue
  | str : String → JValue
  | arr : List JValue → JValue
  | obj : List (String × JValue) → JValue

/-- Errors thrown while the promise body runs.  `typeError` stands for
the JS `TypeError` raised by property access on `null`/`undefined`
(and by `Object.entries(null)`); the two editor errors are the ones
thrown by the `richText` branches.  `fuelExhausted` is produced only
by the depth-bounded model of `traverseFields`, never by the
transcribed source itself. -/
inductive JsError : Type where
  | missingEditorProp : JsError
  | unsanitizedEditor : JsError
  | typeError : JsError
  | fuelExhausted : JsError
deriving DecidableEq, Repr

/-- JS `typeof v`. -/
def jsTypeof : JValue → String
  | .undef => "undefined"
  | .null => "object"
  | .bool _ => "boolean"
  | .num _ => "number"
  | .str _ => "string"
  | .arr _ => "object"
  | .obj _ => "object"

/-- JS truthiness. -/
def truthy : JValue → Bool
  | .undef => false
  | .null => false
  | .bool b => b
  | .num n => n != 0
  | .str s => s != ""
  | .arr _ => true
  | .obj _ => true

def JValue.isUndef : JValue → Bool
  | .undef => true
  | _ => false

def JValue.isNull : JValue → Bool
  | .null => true
  | _ => false

/-- JS strict equality `v === ''`. -/
def JValue.isEmptyStr : JValue → Bool
  | .str "" => true
  | _ => false

/-- JS `typeof v === 'object' && v !== null`. -/
def isNonNullJsObject : JValue → Bool
  | .arr _ => true
  | .obj _ => true
  | _ => false

/-- JS `typeof v === 'object'` (true for `null` as well). -/
def isJsObjectType (v : JValue) : Bool :=
  jsTypeof v == "object"

/-- JS `Array.isArray v`. -/
def JValue.isArr : JValue → Bool
  | .arr _ => true
  | _ => false

def lookupEntry : List (String × JValue) → String → Option JValue
  | [], _ => none
  | (k, v) :: rest, key => if k == key then some v else lookupEntry rest key

/-- Update an existing key in place (keeping entry order) or append a
new one — JS property assignment on an object. -/
def setEntry : List (String × JValue) → String → JValue → List (String × JValue)
  | [], key, v => [(key, v)]
  | (k, w) :: rest, key, v =>
    if k == key then (key, v) :: rest else (k, w) :: setEntry rest key v

/-- Remove a key — JS `delete obj[key]`. -/
def delEntry (kvs : List (String × JValue)) (key : String) : List (String × JValue) :=
  kvs.filter (fun p => !(p.1 == key))

/-- Property read `v[key]`; throws `TypeError` on `null`/`undefined`,
yields `undefined` for absent keys and for primitives. -/
def JValue.jsGet : JValue → String → Except JsError JValue
  | .obj kvs, key => .ok ((lookupEntry kvs key).getD .undef)
  | .null, _ => .error .typeError
  | .undef, _ => .error .typeError
  | _, _ => .ok (.undef : JValue)

/-- Property write `v[key] = x`; throws on `null`/`undefined` and
(strict mode) on primitives.  String-keyed writes into arrays are a
documented model boundary (no-op). -/
def JValue.jsSet : JValue → String → JValue → Except JsError JValue
  | .obj kvs, key, x => .ok (.obj (setEntry kvs key x))
  | .null, _, _ => .error .typeError
  | .undef, _, _ => .error .typeError
  | .arr xs, _, _ => .ok (.arr xs)
  | _, _, _ => .error .typeError

/-- Property removal `delete v[key]` — throws on `null`/`undefined`, no-op on other
non-objects. -/
def JValue.jsDelete : JValue → String → Except JsError JValue
  | .obj kvs, key => .ok (.obj (delEntry kvs key))
  | .null, _ => .error .typeError
  | .undef, _ => .error .typeError
  | v, _ => .ok v

/-- Optional chaining `v?.key`: `undefined` on `null`/`undefined`
instead of throwing. -/
def JValue.optChainGet : JValue → String → JValue
  | .obj kvs, key => (lookupEntry kvs key).getD .undef
  | _, _ => (.undef : JValue)

/-- JS `Object.entries v` — objects give their entry list, arrays their
indexed elements, strings their characters; throws on
`null`/`undefined`. -/
def jsEntries : JValue → Except JsError (List (String × JValue))
  | .obj kvs => .ok kvs
  | .arr xs => .ok (xs.enum.map (fun p => (toString p.1, p.2)))
  | .str s => .ok (s.toList.enum.map (fun p => (toString p.1, .str (String.mk [p.2]))))
  | .null => .error .typeError
  | .undef => .error .typeError
  | _ => .ok []

/-- The configured `defaultValue` of a field: a literal, or computed
from the requesting user and locale. -/
inductive DefaultValueDef : Type where
  | literal : JValue → DefaultValueDef
  | computed : (JValue → Option String → JValue) → DefaultValueDef

/-- Modelled from the spec: `getDefaultValue.js` is not among the
provided sources.  §4.6: "Computes the default given the configured
default (literal or computed from requesting user + locale)". -/
def getDefaultValue (dv : DefaultValueDef) (user : JValue) (locale : Option String) : JValue :=
  match dv with
  | .literal v => v
  | .computed f => f user locale

/-- The `editor` property of a `richText` field: absent (falsy), an
unresolved factory function, or a resolved adapter carrying its own
`afterRead` hook chain. -/
inductive EditorConfig : Type where
  | missing : EditorConfig
  | factory : EditorConfig
  | resolved : List (JValue → JValue) → EditorConfig

mutual

/-- One field definition: optional `name` (its presence is exactly
`fieldAffectsData` / `tabHasName`), `localized`, `hidden`, the
`hooks.afterRead` chain, the `access.read` predicate (receiving the
document and the sibling data), the configured `defaultValue`, and the
type-specific payload.  A hook is modelled as a pure function of the
`value` argument it receives; returning `undefined` means "no
change". -/
inductive FieldDef : Type where
  | mk :
    (name : Option String) →
    (localized : Bool) →
    (hidden : Bool) →
    (hooks : List (JValue → JValue)) →
    (access : Option (JValue → JValue → Bool)) →
    (defaultValue : Option DefaultValueDef) →
    (ty : FieldTy) →
    FieldDef

/-- The `type` tag of a field, with the nested sub-schemas the
traversal switch uses.  `tabs` holds its tabs directly as `tab`-typed
fields (the source spreads each tab into `{ ...tab, type: 'tab' }`
before recursing; the spread is the identity on the data this model
carries).  `blocks` pairs each block's `slug` with its fields. -/
inductive FieldTy : Type where
  | text : FieldTy
  | textarea : FieldTy
  | point : FieldTy
  | richText : EditorConfig → FieldTy
  | group : List FieldDef → FieldTy
  | array : List FieldDef → FieldTy
  | blocks : List (String × List FieldDef) → FieldTy
  | row : List FieldDef → FieldTy
  | collapsible : List FieldDef → FieldTy
  | tab : List FieldDef → FieldTy
  | tabs : List FieldDef → FieldTy
  | relationship : FieldTy
  | upload : FieldTy
  | join : FieldTy
  | other : String → FieldTy

end

def FieldDef.name : FieldDef → Option String
  | .mk n _ _ _ _ _ _ => n

def FieldDef.localized : FieldDef → Bool
  | .mk _ l _ _ _ _ _ => l

def FieldDef.hidden : FieldDef → Bool
  | .mk _ _ h _ _ _ _ => h

def FieldDef.hooks : FieldDef → List (JValue → JValue)
  | .mk _ _ _ hs _ _ _ => hs

def FieldDef.access : FieldDef → Option (JValue → JValue → Bool)
  | .mk _ _ _ _ a _ _ => a

def FieldDef.defaultValue : FieldDef → Option DefaultValueDef
  | .mk _ _ _ _ _ d _ => d

def FieldDef.ty : FieldDef → FieldTy
  | .mk _ _ _ _ _ _ t => t

/-- The `fieldAffectsData` predicate (`'name' in field`). -/
def fieldAffectsData (f : FieldDef) : Bool :=
  f.name.isSome

/-- The JS property key `field.name` indexes with: a missing name is
coerced to the string "undefined" by JS bracket indexing. -/
def FieldDef.nameKey (f : FieldDef) : String :=
  f.name.getD "undefined"

/-- The JS property key a `null` locale indexes with ("null"). -/
def localeKey (l : Option String) : String :=
  l.getD "null"

/-- One path segment: a field name or an array/block row index. -/
inductive Seg : Type where
  | key : String → Seg
  | idx : Nat → Seg
deriving DecidableEq, Repr

/-- Modelled from the spec: `getFieldPaths.js` is not among the
provided sources.  §4.1: instance path = parent path + field name (or
nothing appended for unnamed structural fields); schema path = parent
schema path + name or a synthetic segment for unnamed fields. -/
def getFieldPaths (field : FieldDef) (parentPath : List Seg)
    (parentSchemaPath : List String) (schemaIndex : Nat) :
    List Seg × List String :=
  match field.name with
  | some n => (parentPath ++ [.key n], parentSchemaPath ++ [n])
  | none => (parentPath, parentSchemaPath ++ ["_index-" ++ toString schemaIndex])

/-- The non-field arguments of `promise`, bundled.  `reqId` stands for
the opaque `req` object; `localization` is the truthiness of
`req.payload.config.localization`; `user` is `req.user`. -/
structure Ctx : Type where
  doc : JValue
  user : JValue
  reqId : Nat
  localization : Bool
  flattenLocales : Bool
  findMany : Bool
  draft : Bool
  locale : Option String
  fallbackLocale : Option String
  overrideAccess : Bool
  showHiddenFields : Bool
  triggerAccessControl : Bool
  triggerHooks : Bool
  currentDepth : Nat
  depth : Nat

/-- The deferred population task pushed for relationship/upload/join
fields (`relationshipPopulationPromise` argument record).  It is inert
data in this model: nothing in the traversal executes it. -/
structure PopTask : Type where
  currentDepth : Nat
  depth : Nat
  draft : Bool
  fallbackLocale : Option String
  field : FieldDef
  locale : Option String
  overrideAccess : Bool
  req : Nat
  showHiddenFields : Bool
  siblingDoc : JValue

/-- The shape of the external `traverseFields` the promise recurses
through: context, fields to walk, parent path, parent schema path,
sibling container, population queue. -/
def TraverseFun : Type :=
  Ctx → List FieldDef → List Seg → List String → JValue → List PopTask →
    Except JsError (JValue × List PopTask)

/-- Transcribes `promise.ts` lines 89-96: remove hidden fields from the response
unless `showHiddenFields`. -/
def removeHiddenField (ctx : Ctx) (field : FieldDef) (sibling : JValue) :
    Except JsError JValue := do
  match field.name with
  | some n =>
    if field.hidden then do
      let v ← sibling.jsGet n
      if !v.isUndef && !ctx.showHiddenFields then sibling.jsDelete n else pure sibling
    else
      pure sibling
  | none => pure sibling

/-- Transcribes `promise.ts` lines 98-105: the `shouldHoistLocalizedValue`
condition (evaluated with JS short-circuiting, so the slot is only
read when `flattenLocales` holds and the field is data-affecting). -/
def shouldHoistLocalizedValue (ctx : Ctx) (field : FieldDef) (sibling : JValue) :
    Except JsError Bool := do
  if ctx.flattenLocales then
    match field.name with
    | some n => do
      let v ← sibling.jsGet n
      pure (isNonNullJsObject v && field.localized &&
        !(ctx.locale == some "all") && ctx.localization)
    | none => pure false
  else
    pure false

/-- Transcribes `promise.ts` lines 107-139: replace the per-locale map with the
requested locale's entry, applying the fallback-locale rules (text and
textarea additionally fall back on the empty string). -/
def hoistStage (ctx : Ctx) (field : FieldDef) (shouldHoist : Bool) (sibling : JValue) :
    Except JsError JValue := do
  if shouldHoist then
    let n := field.nameKey
    let container ← sibling.jsGet n
    let value ← container.jsGet (localeKey ctx.locale)
    let hoisted ←
      match ctx.fallbackLocale with
      | some fb =>
        if fb != "" && !(some fb == ctx.locale) then do
          let fallbackValue ← container.jsGet fb
          let isNoU := value.isUndef || value.isNull
          if truthy fallbackValue then
            match field.ty with
            | .text => pure (if value.isEmptyStr || isNoU then fallbackValue else value)
            | .textarea => pure (if value.isEmptyStr || isNoU then fallbackValue else value)
            | _ => pure (if isNoU then fallbackValue else value)
          else
            pure value
        else
          pure value
      | none => pure value
    sibling.jsSet n hoisted
  else
    pure sibling

/-- Transcribes `promise.ts` lines 152-160 (`tabs` sanitize): every named tab whose
slot is `undefined`/`null` becomes `{}`. -/
def sanitizeTabs : List FieldDef → JValue → Except JsError JValue
  | [], sibling => pure sibling
  | t :: ts, sibling => do
    match t.name with
    | some n => do
      let v ← sibling.jsGet n
      let sibling' ← if v.isUndef || v.isNull then sibling.jsSet n (.obj []) else pure sibling
      sanitizeTabs ts sibling'
    | none => sanitizeTabs ts sibling

/-- Transcribes `promise.ts` lines 142-191: the sanitize switch (group container
creation, tabs container creation, richText editor validation, point
collapse). -/
def sanitizeStage (field : FieldDef) (sibling : JValue) : Except JsError JValue := do
  match field.ty with
  | .group _ => do
    let v ← sibling.jsGet field.nameKey
    if v.isUndef then sibling.jsSet field.nameKey (.obj []) else pure sibling
  | .tabs tabFields => sanitizeTabs tabFields sibling
  | .richText ed =>
    match ed with
    | .missing => .error .missingEditorProp
    | .factory => .error .unsanitizedEditor
    | .resolved _ => pure sibling
  | .point => do
    let pointDoc ← sibling.jsGet field.nameKey
    match pointDoc.optChainGet "coordinates" with
    | .arr l =>
      if l.length == 2 then
        sibling.jsSet field.nameKey (.arr l)
      else
        sibling.jsSet field.nameKey .undef
    | _ => sibling.jsSet field.nameKey .undef
  | _ => pure sibling

/-- Transcribes `promise.ts` lines 204-234 (and 607-649 for rich-text hooks): the
all-locales fan-out of one hook over `Object.entries` of the slot,
writing back per locale key only when the hook returns a defined
value.  The concurrent `Promise.all` writes touch pairwise distinct
locale keys; this is its deterministic linearization. -/
def runHookAllLocales (h : JValue → JValue) (n : String)
    (entries : List (String × JValue)) (sibling : JValue) : Except JsError JValue :=
  match entries with
  | [] => pure sibling
  | (k, v) :: rest => do
    let hooked := h v
    let sibling' ←
      if hooked.isUndef then
        pure sibling
      else do
        let container ← sibling.jsGet n
        let container' ← container.jsSet k hooked
        sibling.jsSet n container'
    runHookAllLocales h n rest sibling'

/-- Transcribes `promise.ts` lines 195-261 (and 603-684): the sequential
`afterRead` hook chain (`reduce` over the hooks, each awaiting the
previous).  Each step re-evaluates `shouldRunHookOnAllLocales` on the
current slot and either fans out per locale or runs the hook once
against the single current value, writing back only a defined
result. -/
def runHookChain (ctx : Ctx) (field : FieldDef) (n : String) :
    List (JValue → JValue) → JValue → Except JsError JValue
  | [], sibling => pure sibling
  | h :: rest, sibling => do
    let cur ← sibling.jsGet n
    let shouldAll := field.localized &&
      (ctx.locale == some "all" || !ctx.flattenLocales) && isJsObjectType cur
    let sibling' ←
      if shouldAll then do
        let entries ← jsEntries cur
        runHookAllLocales h n entries sibling
      else do
        let hooked := h cur
        if hooked.isUndef then pure sibling else sibling.jsSet n hooked
    runHookChain ctx field n rest sibling'

/-- Transcribes `promise.ts` lines 264-281: the read access gate.  Returns the new
sibling and the `allowDefaultValue` flag; on denial the field's key is
deleted and defaults are suppressed.  When access is overridden the
predicate is not consulted. -/
def accessStage (ctx : Ctx) (field : FieldDef) (n : String) (sibling : JValue) :
    Except JsError (JValue × Bool) := do
  match field.access with
  | some pred =>
    if ctx.triggerAccessControl then
      if ctx.overrideAccess then
        pure (sibling, true)
      else
        if pred ctx.doc sibling then
          pure (sibling, true)
        else do
          let sibling' ← sibling.jsDelete n
          pure (sibling', false)
    else
      pure (sibling, true)
  | none => pure (sibling, true)

/-- Transcribes `promise.ts` lines 283-296: default-value substitution when the
slot is still `undefined`, a default is configured and access did not
deny the field. -/
def defaultStage (ctx : Ctx) (field : FieldDef) (n : String)
    (sibling : JValue) (allowDefaultValue : Bool) : Except JsError JValue := do
  let v ← sibling.jsGet n
  match field.defaultValue with
  | some dv =>
    if allowDefaultValue && v.isUndef then
      sibling.jsSet n (getDefaultValue dv ctx.user ctx.locale)
    else
      pure sibling
  | none => pure sibling

/-- Transcribes `promise.ts` lines 298-313: push exactly one deferred population
task for relationship/upload/join fields, capturing the call's
context, the field and the owning sibling container. -/
def populationStage (ctx : Ctx) (field : FieldDef) (sibling : JValue)
    (pops : List PopTask) : List PopTask :=
  match field.ty with
  | .relationship =>
    pops ++ [⟨ctx.currentDepth, ctx.depth, ctx.draft, ctx.fallbackLocale, field,
      ctx.locale, ctx.overrideAccess, ctx.reqId, ctx.showHiddenFields, sibling⟩]
  | .upload =>
    pops ++ [⟨ctx.currentDepth, ctx.depth, ctx.draft, ctx.fallbackLocale, field,
      ctx.locale, ctx.overrideAccess, ctx.reqId, ctx.showHiddenFields, sibling⟩]
  | .join =>
    pops ++ [⟨ctx.currentDepth, ctx.depth, ctx.draft, ctx.fallbackLocale, field,
      ctx.locale, ctx.overrideAccess, ctx.reqId, ctx.showHiddenFields, sibling⟩]
  | _ => pops

/-- Transcribes `promise.ts` lines 354-380 (and 383-409): walk one array's rows,
recursing into each row with the row's index appended to the instance
path and the schema path unchanged.  A falsy row is traversed as a
fresh `{}` (JS `row || {}`) whose result is discarded — the original
row stays in the sequence. -/
def traverseRows (tf : TraverseFun) (ctx : Ctx) (fs : List FieldDef)
    (path : List Seg) (spath : List String) :
    Nat → List JValue → List PopTask → Except JsError (List JValue × List PopTask)
  | _, [], pops => pure ([], pops)
  | i, row :: rest, pops => do
    let rowSibling := if truthy row then row else .obj []
    let (row', pops') ← tf ctx fs (path ++ [.idx i]) spath rowSibling pops
    let kept := if truthy row then row' else row
    let (rest', pops'') ← traverseRows tf ctx fs path spath (i + 1) rest pops'
    pure (kept :: rest', pops'')

/-- Transcribes `promise.ts` lines 382-411: the unflattened localized array case —
each locale entry that holds a sequence is walked like a plain array
(same schema path, index appended per row); non-sequence locale
entries are left alone. -/
def traverseLocaleRows (tf : TraverseFun) (ctx : Ctx) (fs : List FieldDef)
    (path : List Seg) (spath : List String) :
    List (String × JValue) → List PopTask →
    Except JsError (List (String × JValue) × List PopTask)
  | [], pops => pure ([], pops)
  | (k, JValue.arr rs) :: rest, pops => do
    let (rsB, popsB) ← traverseRows tf ctx fs path spath 0 rs pops
    let (restB, popsC) ← traverseLocaleRows tf ctx fs path spath rest popsB
    pure ((k, .arr rsB) :: restB, popsC)
  | (k, lv) :: rest, pops => do
    let (restB, popsB) ← traverseLocaleRows tf ctx fs path spath rest pops
    pure ((k, lv) :: restB, popsB)

/-- Evaluate `blockType.slug === row.blockType` over the configured blocks —
strict equality, so only a string discriminator can match. -/
def findBlock (blocks : List (String × List FieldDef)) (bt : JValue) :
    Option (String × List FieldDef) :=
  blocks.find? (fun b => match bt with | .str s => b.1 == s | _ => false)

/-- Transcribes `promise.ts` lines 421-453 (and 455-490): walk one blocks
sequence.  Each row's `blockType` selects the sub-schema; rows whose
discriminator matches no configured block are left untouched (no
recursion, not dropped). -/
def traverseBlockRows (tf : TraverseFun) (ctx : Ctx)
    (blocks : List (String × List FieldDef))
    (path : List Seg) (spath : List String) :
    Nat → List JValue → List PopTask → Except JsError (List JValue × List PopTask)
  | _, [], pops => pure ([], pops)
  | i, row :: rest, pops => do
    let bt ← row.jsGet "blockType"
    match findBlock blocks bt with
    | some b => do
      let rowSibling := if truthy row then row else .obj []
      let (row', pops') ← tf ctx b.2 (path ++ [.idx i]) spath rowSibling pops
      let kept := if truthy row then row' else row
      let (rest', pops'') ← traverseBlockRows tf ctx blocks path spath (i + 1) rest pops'
      pure (kept :: rest', pops'')
    | none => do
      let (rest', pops') ← traverseBlockRows tf ctx blocks path spath (i + 1) rest pops
      pure (row :: rest', pops')

/-- Transcribes `promise.ts` lines 454-490: the unflattened localized blocks case. -/
def traverseBlockLocaleRows (tf : TraverseFun) (ctx : Ctx)
    (blocks : List (String × List FieldDef))
    (path : List Seg) (spath : List String) :
    List (String × JValue) → List PopTask →
    Except JsError (List (String × JValue) × List PopTask)
  | [], pops => pure ([], pops)
  | (k, JValue.arr rs) :: rest, pops => do
    let (rsB, popsB) ← traverseBlockRows tf ctx blocks path spath 0 rs pops
    let (restB, popsC) ← traverseBlockLocaleRows tf ctx blocks path spath rest popsB
    pure ((k, .arr rsB) :: restB, popsC)
  | (k, lv) :: rest, pops => do
    let (restB, popsB) ← traverseBlockLocaleRows tf ctx blocks path spath rest pops
    pure ((k, lv) :: restB, popsB)

/-- Transcribes `promise.ts` lines 316-691: the traversal switch.  `group` and
named `tab` recurse into the slot when it is `typeof 'object'`,
otherwise into a fresh `{}` that is never assigned back; `array` and
`blocks` walk their rows (or, unflattened, each locale's rows) and
coerce any other slot shape to `[]`; `row`/`collapsible` and unnamed
`tab`/`tabs` are transparent; `richText` re-validates the editor and
runs the editor's own afterRead chain, with no structural recursion. -/
def traverseStage (tf : TraverseFun) (ctx : Ctx) (field : FieldDef)
    (shouldHoist : Bool) (fieldPath : List Seg) (fieldSchemaPath : List String)
    (sibling : JValue) (pops : List PopTask) :
    Except JsError (JValue × List PopTask) := do
  match field.ty with
  | .group fs => do
    let v ← sibling.jsGet field.nameKey
    if isJsObjectType v then do
      let (g', pops') ← tf ctx fs fieldPath fieldSchemaPath v pops
      let sibling' ← sibling.jsSet field.nameKey g'
      pure (sibling', pops')
    else do
      let (_, pops') ← tf ctx fs fieldPath fieldSchemaPath (.obj []) pops
      pure (sibling, pops')
  | .array fs => do
    let rows ← sibling.jsGet field.nameKey
    match rows with
    | .arr rs => do
      let (rs', pops') ← traverseRows tf ctx fs fieldPath fieldSchemaPath 0 rs pops
      let sibling' ← sibling.jsSet field.nameKey (.arr rs')
      pure (sibling', pops')
    | _ =>
      if !shouldHoist && isNonNullJsObject rows then do
        let entries ← jsEntries rows
        let (entries', pops') ←
          traverseLocaleRows tf ctx fs fieldPath fieldSchemaPath entries pops
        let sibling' ← sibling.jsSet field.nameKey (.obj entries')
        pure (sibling', pops')
      else do
        let sibling' ← sibling.jsSet field.nameKey (.arr [])
        pure (sibling', pops)
  | .blocks bs => do
    let rows ← sibling.jsGet field.nameKey
    match rows with
    | .arr rs => do
      let (rs', pops') ← traverseBlockRows tf ctx bs fieldPath fieldSchemaPath 0 rs pops
      let sibling' ← sibling.jsSet field.nameKey (.arr rs')
      pure (sibling', pops')
    | _ =>
      if !shouldHoist && isNonNullJsObject rows then do
        let entries ← jsEntries rows
        let (entries', pops') ←
          traverseBlockLocaleRows tf ctx bs fieldPath fieldSchemaPath entries pops
        let sibling' ← sibling.jsSet field.nameKey (.obj entries')
        pure (sibling', pops')
      else do
        let sibling' ← sibling.jsSet field.nameKey (.arr [])
        pure (sibling', pops)
  | .row fs => tf ctx fs fieldPath fieldSchemaPath sibling pops
  | .collapsible fs => tf ctx fs fieldPath fieldSchemaPath sibling pops
  | .tab fs =>
    match field.name with
    | some n => do
      let v ← sibling.jsGet n
      if isJsObjectType v then do
        let (t', pops') ← tf ctx fs fieldPath fieldSchemaPath v pops
        let sibling' ← sibling.jsSet n t'
        pure (sibling', pops')
      else do
        let (_, pops') ← tf ctx fs fieldPath fieldSchemaPath (.obj []) pops
        pure (sibling, pops')
    | none => tf ctx fs fieldPath fieldSchemaPath sibling pops
  | .tabs tabFields => tf ctx tabFields fieldPath fieldSchemaPath sibling pops
  | .richText ed =>
    match ed with
    | .missing => .error .missingEditorProp
    | .factory => .error .unsanitizedEditor
    | .resolved editorHooks =>
      if editorHooks.length != 0 then do
        let sibling' ← runHookChain ctx field field.nameKey editorHooks sibling
        pure (sibling', pops)
      else
        pure (sibling, pops)
  | _ => pure (sibling, pops)

/-- The transcription of `promise` (`promise.ts` lines 57-692),
parametrized by the traversal function it recurses through.  In
source order: path computation, hidden-field removal, locale hoisting,
sanitization, then — for data-affecting fields — the afterRead hook
chain, the read access gate, default substitution and the population
push, and finally the traversal switch. -/
def promiseF (tf : TraverseFun) (ctx : Ctx) (field : FieldDef) (fieldIndex : Nat)
    (parentPath : List Seg) (parentSchemaPath : List String)
    (sibling : JValue) (pops : List PopTask) :
    Except JsError (JValue × List PopTask) := do
  let (fieldPath, fieldSchemaPath) :=
    getFieldPaths field parentPath parentSchemaPath fieldIndex
  let sibling ← removeHiddenField ctx field sibling
  let shouldHoist ← shouldHoistLocalizedValue ctx field sibling
  let sibling ← hoistStage ctx field shouldHoist sibling
  let sibling ← sanitizeStage field sibling
  let (sibling, pops) ←
    match field.name with
    | some n => do
      let sibling ←
        if ctx.triggerHooks then
          runHookChain ctx field n field.hooks sibling
        else
          pure sibling
      let (sibling, allowDefaultValue) ← accessStage ctx field n sibling
      let sibling ← defaultStage ctx field n sibling allowDefaultValue
      pure (sibling, populationStage ctx field sibling pops)
    | none => pure (sibling, pops)
  traverseStage tf ctx field shouldHoist fieldPath fieldSchemaPath sibling pops

/-- Apply `promiseF` to each field of one sibling level in declaration
order, threading the sibling container and the population queue and
counting the schema index. -/
def goFields (tf : TraverseFun) (ctx : Ctx) :
    List FieldDef → Nat → List Seg → List String → JValue → List PopTask →
    Except JsError (JValue × List PopTask)
  | [], _, _, _, sibling, pops => pure (sibling, pops)
  | f :: fs, i, path, spath, sibling, pops => do
    let (sibling', pops') ← promiseF tf ctx f i path spath sibling pops
    goFields tf ctx fs (i + 1) path spath sibling' pops'

/-- Modelled from the spec: `traverseFields.ts` is not among the
provided sources.  §2/§4.8: the traversal engine applies the per-field
promise to every field of the schema in declaration order, threading
the sibling container and the two caller-owned queues.  The `fuel`
argument bounds the schema nesting depth the engine may descend
through; any fuel at least the schema's depth gives the engine's
behavior (the transcribed source never produces `fuelExhausted`). -/
def traverseFields : Nat → TraverseFun
  | 0 => fun _ _ _ _ _ _ => .error .fuelExhausted
  | fuel + 1 => fun ctx fields path spath sibling pops =>
    goFields (traverseFields fuel) ctx fields 0 path spath sibling pops

/-! ### Supporting lemmas about the JS object model -/

theorem lookupEntry_setEntry_self (kvs : List (String × JValue)) (k : String) (v : JValue) :
    lookupEntry (setEntry kvs k v) k = some v := by
  induction kvs with
  | nil => simp [setEntry, lookupEntry]
  | cons p rest ih =>
    by_cases h : p.1 = k
    · simp [setEntry, lookupEntry, h]
    · simp [setEntry, lookupEntry, h, ih]

theorem lookupEntry_setEntry_other (kvs : List (String × JValue)) (k k' : String) (v : JValue)
    (h : k' ≠ k) : lookupEntry (setEntry kvs k v) k' = lookupEntry kvs k' := by
  induction kvs with
  | nil => simp [setEntry, lookupEntry, Ne.symm h]
  | cons p rest ih =>
    by_cases hp : p.1 = k
    · subst hp
      simp [setEntry, lookupEntry, Ne.symm h]
    · by_cases hk : p.1 = k'
      · simp [setEntry, lookupEntry, hp, hk, h]
      · simp [setEntry, lookupEntry, hp, hk, ih]

theorem lookupEntry_delEntry_self (kvs : List (String × JValue)) (k : String) :
    lookupEntry (delEntry kvs k) k = none := by
  induction kvs with
  | nil => simp [delEntry, lookupEntry]
  | cons p rest ih =>
    by_cases h : p.1 = k
    · simpa [delEntry, List.filter_cons, h] using ih
    · simp only [delEntry, List.filter_cons] at ih ⊢
      simp [h, lookupEntry, ih]

theorem lookupEntry_delEntry_other (kvs : List (String × JValue)) (k k' : String)
    (h : k' ≠ k) : lookupEntry (delEntry kvs k) k' = lookupEntry kvs k' := by
  induction kvs with
  | nil => simp [delEntry, lookupEntry]
  | cons p rest ih =>
    simp only [delEntry, List.filter_cons] at ih ⊢
    by_cases hp : p.1 = k
    · subst hp
      simp [lookupEntry, Ne.symm h, ih]
    · by_cases hk : p.1 = k'
      · simp [lookupEntry, hp, hk, h]
      · simp [lookupEntry, hp, hk, ih]

theorem delEntry_not_mem (kvs : List (String × JValue)) (k : String) :
    ∀ p ∈ delEntry kvs k, p.1 ≠ k := by
  intro p hp
  have := List.of_mem_filter hp
  simpa using this

/-! ### C1: locale hoisting -/

/-- Text-like field types, which additionally fall back on the empty
string. -/
def isTextLikeTy : FieldTy → Bool
  | .text => true
  | .textarea => true
  | _ => false

/-- Claim-side description (C1) of the value hoisting writes into the
slot: the requested locale's entry, except that when a fallback locale
differing from the requested locale is set and the fallback entry is
truthy, the fallback entry is substituted if the primary entry is
null/undefined (any field type) or additionally the empty string
(text-like field types). -/
def claimHoistedValue (isTextLike : Bool) (locale fallbackLocale : Option String)
    (container : JValue) : JValue :=
  let primary := container.optChainGet (localeKey locale)
  match fallbackLocale with
  | none => primary
  | some fb =>
    if fb != "" && !(some fb == locale) then
      let fallback := container.optChainGet fb
      if truthy fallback &&
          (primary.isUndef || primary.isNull || (isTextLike && primary.isEmptyStr)) then
        fallback
      else
        primary
    else
      primary

theorem jsGet_obj (kvs : List (String × JValue)) (k : String) :
    (JValue.obj kvs).jsGet k = .ok ((lookupEntry kvs k).getD .undef) := rfl

theorem jsSet_obj (kvs : List (String × JValue)) (k : String) (v : JValue) :
    (JValue.obj kvs).jsSet k v = .ok (.obj (setEntry kvs k v)) := rfl

theorem jsDelete_obj (kvs : List (String × JValue)) (k : String) :
    (JValue.obj kvs).jsDelete k = .ok (.obj (delEntry kvs k)) := rfl

theorem jsEntries_obj (kvs : List (String × JValue)) : jsEntries (.obj kvs) = .ok kvs := rfl

theorem excBind_ok {α β : Type} (a : α) (f : α → Except JsError β) :
    (Except.ok a : Except JsError α) >>= f = f a := rfl

theorem excBind_err {α β : Type} (e : JsError) (f : α → Except JsError β) :
    (Except.error e : Except JsError α) >>= f = .error e := rfl

theorem excPure {α : Type} (a : α) : (pure a : Except JsError α) = .ok a := rfl

theorem jsGet_of_nonNullObject (c : JValue) (k : String) (h : isNonNullJsObject c = true) :
    c.jsGet k = .ok (c.optChainGet k) := by
  cases c <;> simp_all [isNonNullJsObject, JValue.jsGet, JValue.optChainGet]

/-- C1.  Locale hoisting runs exactly when locale flattening is
requested, the field is data-affecting (named) and localized, the slot
holds a non-null structured value, the requested locale is not "all"
and localization is enabled; it then replaces the slot with the
requested locale's entry, with the fallback-locale substitution rule
of `claimHoistedValue` (null/undefined for any field type, plus the
empty string for text and textarea). -/
theorem c1_locale_hoisting (ctx : Ctx) (field : FieldDef) (n : String)
    (kvs : List (String × JValue)) (hname : field.name = some n) :
    shouldHoistLocalizedValue ctx field (.obj kvs) =
      .ok (ctx.flattenLocales &&
        (isNonNullJsObject ((lookupEntry kvs n).getD .undef) && (field.localized &&
          (!(ctx.locale == some "all") && ctx.localization)))) ∧
    ((ctx.flattenLocales &&
        (isNonNullJsObject ((lookupEntry kvs n).getD .undef) && (field.localized &&
          (!(ctx.locale == some "all") && ctx.localization)))) = true →
      hoistStage ctx field true (.obj kvs) =
        .ok (.obj (setEntry kvs n
          (claimHoistedValue (isTextLikeTy field.ty) ctx.locale ctx.fallbackLocale
            ((lookupEntry kvs n).getD .undef))))) ∧
    (∀ sibling, hoistStage ctx field false sibling = .ok sibling) := by
  refine ⟨?_, ?_, ?_⟩
  · cases hfl : ctx.flattenLocales <;>
      simp [shouldHoistLocalizedValue, hname, hfl, jsGet_obj, excBind_ok, excPure,
        Bool.and_assoc]
  · intro hcond
    simp only [Bool.and_eq_true] at hcond
    obtain ⟨hfl, hobj, hrest⟩ := hcond
    simp only [hoistStage, if_true, FieldDef.nameKey, hname, Option.getD_some, jsGet_obj,
      excBind_ok, excPure]
    simp only [jsGet_of_nonNullObject _ _ hobj, excBind_ok]
    simp only [claimHoistedValue]
    cases hfb : ctx.fallbackLocale with
    | none => simp [jsSet_obj, excBind_ok, excPure]
    | some fb =>
      by_cases hne : (fb != "" && !(some fb == ctx.locale)) = true
      · simp only [hne, if_true, jsGet_of_nonNullObject _ _ hobj, excBind_ok, excPure]
        cases htr : truthy (JValue.optChainGet ((lookupEntry kvs n).getD .undef) fb)
        · cases hty : field.ty <;>
            simp [isTextLikeTy, jsSet_obj, excBind_ok, excPure, htr]
        · cases hty : field.ty <;>
            simp [isTextLikeTy, jsSet_obj, excBind_ok, excPure, htr,
              Bool.or_comm, Bool.or_assoc, Bool.or_left_comm]
      · simp only [Bool.not_eq_true] at hne
        simp [hne, jsSet_obj, excBind_ok, excPure]
  · intro sibling
    simp [hoistStage, excPure]

/-- A concrete request context shared by the witnesses: flattening
into locale "en" with fallback "fr", localization enabled, no access
override, hidden fields not shown. -/
def ctxW : Ctx where
  doc := .obj []
  user := .null
  reqId := 7
  localization := true
  flattenLocales := true
  findMany := false
  draft := false
  locale := some "en"
  fallbackLocale := some "fr"
  overrideAccess := false
  showHiddenFields := false
  triggerAccessControl := true
  triggerHooks := true
  currentDepth := 0
  depth := 1

/-- A localized text field named "title" (witness for C1). -/
def fieldTitle : FieldDef := .mk (some "title") true false [] none none .text

theorem c1_locale_hoisting_witness :
    hoistStage ctxW fieldTitle true
      (.obj [("title", .obj [("en", .str ""), ("fr", .str "bonjour")])]) =
      .ok (.obj [("title", .str "bonjour")]) := by
  have h := (c1_locale_hoisting ctxW fieldTitle "title"
    [("title", .obj [("en", .str ""), ("fr", .str "bonjour")])] rfl).2.1 (by decide)
  exact h.trans rfl

/-! ### C2: hook chain order and write-back -/

/-- One step of the all-locales fan-out, seen from the locale map:
when the hook's result for an entry is defined it is written back
under that entry's key, otherwise the map is unchanged. -/
def localeWriteBack (h : JValue → JValue) (c : List (String × JValue))
    (p : String × JValue) : List (String × JValue) :=
  if (h p.2).isUndef then c else setEntry c p.1 (h p.2)

theorem setEntry_fst_of_mem (c : List (String × JValue)) (k : String) (v : JValue)
    (hk : k ∈ c.map Prod.fst) : (setEntry c k v).map Prod.fst = c.map Prod.fst := by
  induction c with
  | nil => simp at hk
  | cons p rest ih =>
    by_cases hp : p.1 = k
    · simp [setEntry, hp]
    · have hk2 : k ∈ rest.map Prod.fst := by
        simp only [List.map_cons, List.mem_cons] at hk
        rcases hk with hk | hk
        · exact absurd hk.symm hp
        · exact hk
      simp [setEntry, hp, ih hk2]

theorem foldl_writeBack_lookup_notMem (h : JValue → JValue) (k : String) :
    ∀ (todo acc : List (String × JValue)), k ∉ todo.map Prod.fst →
      lookupEntry (todo.foldl (localeWriteBack h) acc) k = lookupEntry acc k := by
  intro todo
  induction todo with
  | nil => intro acc _; rfl
  | cons p rest ih =>
    intro acc hk
    simp only [List.map_cons, List.mem_cons, not_or] at hk
    simp only [List.foldl_cons]
    rw [ih _ hk.2]
    unfold localeWriteBack
    cases hu : (h p.2).isUndef with
    | true => rw [if_pos rfl]
    | false =>
      rw [if_neg (by simp)]
      exact lookupEntry_setEntry_other _ _ _ _ hk.1

theorem foldl_writeBack_lookup (h : JValue → JValue) :
    ∀ (todo acc : List (String × JValue)) (k : String) (v : JValue),
      (todo.map Prod.fst).Nodup →
      lookupEntry todo k = some v →
      lookupEntry acc k = some v →
      lookupEntry (todo.foldl (localeWriteBack h) acc) k =
        some (if (h v).isUndef then v else h v) := by
  intro todo
  induction todo with
  | nil =>
    intro acc k v _ htodo _
    simp [lookupEntry] at htodo
  | cons p rest ih =>
    intro acc k v hnd htodo hacc
    simp only [List.foldl_cons]
    by_cases hp : p.1 = k
    · have hv : p.2 = v := by
        simp only [lookupEntry] at htodo
        rw [if_pos (by simpa using hp)] at htodo
        exact Option.some_inj.mp htodo
      subst hv
      have hkn : k ∉ rest.map Prod.fst := by
        rw [List.map_cons] at hnd
        have hc := (List.nodup_cons.mp hnd).1
        rw [hp] at hc
        exact hc
      rw [foldl_writeBack_lookup_notMem h k rest _ hkn]
      unfold localeWriteBack
      cases hu : (h p.2).isUndef with
      | true =>
        rw [if_pos rfl, if_pos rfl]
        exact hacc
      | false =>
        rw [if_neg (by simp), if_neg (by simp), hp, lookupEntry_setEntry_self]
    · have htodo2 : lookupEntry rest k = some v := by
        simp only [lookupEntry] at htodo
        rwa [if_neg (by simpa using hp)] at htodo
      have hacc2 : lookupEntry (localeWriteBack h acc p) k = some v := by
        unfold localeWriteBack
        cases hu : (h p.2).isUndef with
        | true =>
          rw [if_pos rfl]
          exact hacc
        | false =>
          rw [if_neg (by simp),
            lookupEntry_setEntry_other _ _ _ _ (fun he => hp he.symm)]
          exact hacc
      have hnd2 : (rest.map Prod.fst).Nodup := by
        rw [List.map_cons] at hnd
        exact (List.nodup_cons.mp hnd).2
      exact ih _ k v hnd2 htodo2 hacc2

theorem foldl_writeBack_fst (h : JValue → JValue) :
    ∀ (todo acc : List (String × JValue)),
      (∀ p ∈ todo, p.1 ∈ acc.map Prod.fst) →
      (todo.foldl (localeWriteBack h) acc).map Prod.fst = acc.map Prod.fst := by
  intro todo
  induction todo with
  | nil => intro acc _; rfl
  | cons p rest ih =>
    intro acc hmem
    simp only [List.foldl_cons]
    have hstep : (localeWriteBack h acc p).map Prod.fst = acc.map Prod.fst := by
      unfold localeWriteBack
      cases hu : (h p.2).isUndef with
      | true => rw [if_pos rfl]
      | false =>
        rw [if_neg (by simp)]
        exact setEntry_fst_of_mem acc p.1 (h p.2) (hmem p (by simp))
    have hmem2 : ∀ q ∈ rest, q.1 ∈ (localeWriteBack h acc p).map Prod.fst := by
      intro q hq
      rw [hstep]
      exact hmem q (List.mem_cons_of_mem p hq)
    rw [ih (localeWriteBack h acc p) hmem2, hstep]

/-- The all-locales fan-out (`runHookAllLocales`) over a snapshot of
entries, characterised on the locale map: the slot ends as the fold of
`localeWriteBack` over the snapshot, and every other sibling key is
untouched. -/
theorem runHookAllLocales_spec (h : JValue → JValue) (n : String) :
    ∀ (todo : List (String × JValue)) (kvs cur : List (String × JValue)),
      lookupEntry kvs n = some (.obj cur) →
      ∃ kvs2, runHookAllLocales h n todo (.obj kvs) = .ok (.obj kvs2) ∧
        lookupEntry kvs2 n = some (.obj (todo.foldl (localeWriteBack h) cur)) ∧
        (∀ k, k ≠ n → lookupEntry kvs2 k = lookupEntry kvs k) := by
  intro todo
  induction todo with
  | nil =>
    intro kvs cur hcur
    exact ⟨kvs, rfl, by simpa using hcur, fun _ _ => rfl⟩
  | cons p rest ih =>
    obtain ⟨k0, v0⟩ := p
    intro kvs cur hcur
    simp only [runHookAllLocales, List.foldl_cons]
    cases hu : (h v0).isUndef with
    | true =>
      rw [if_pos rfl]
      simp only [excPure, excBind_ok]
      obtain ⟨kvs2, h1, h2, h3⟩ := ih kvs cur hcur
      refine ⟨kvs2, h1, ?_, h3⟩
      simpa [localeWriteBack, hu] using h2
    | false =>
      rw [if_neg (by simp)]
      simp only [jsGet_obj, excBind_ok, hcur, Option.getD_some, jsSet_obj, excPure]
      obtain ⟨kvs2, h1, h2, h3⟩ :=
        ih (setEntry kvs n (.obj (setEntry cur k0 (h v0)))) (setEntry cur k0 (h v0))
          (by rw [lookupEntry_setEntry_self])
      refine ⟨kvs2, h1, ?_, ?_⟩
      · simpa [localeWriteBack, hu] using h2
      · intro k hk
        rw [h3 k hk, lookupEntry_setEntry_other _ _ _ _ hk]

/-- The hook chain on the single-value path (non-localized field): the
slot ends as the left fold of the hooks in declared order with
defined-only write-back; other sibling keys untouched. -/
theorem runHookChain_nonlocalized_spec (ctx : Ctx) (field : FieldDef) (n : String)
    (hloc : field.localized = false) :
    ∀ (hooks : List (JValue → JValue)) (kvs : List (String × JValue)),
      ∃ kvs2, runHookChain ctx field n hooks (.obj kvs) = .ok (.obj kvs2) ∧
        (lookupEntry kvs2 n).getD .undef =
          hooks.foldl (fun v h => if (h v).isUndef then v else h v)
            ((lookupEntry kvs n).getD .undef) ∧
        (∀ k, k ≠ n → lookupEntry kvs2 k = lookupEntry kvs k) := by
  intro hooks
  induction hooks with
  | nil => intro kvs; exact ⟨kvs, rfl, rfl, fun _ _ => rfl⟩
  | cons h rest ih =>
    intro kvs
    simp only [runHookChain, jsGet_obj, excBind_ok, hloc, Bool.false_and, Bool.and_false,
      if_false, List.foldl_cons]
    cases hu : (h ((lookupEntry kvs n).getD .undef)).isUndef with
    | true =>
      simp only [hu, if_true, excPure, excBind_ok]
      obtain ⟨kvs2, h1, h2, h3⟩ := ih kvs
      exact ⟨kvs2, h1, by simp [hu, h2], h3⟩
    | false =>
      simp only [hu, if_false, jsSet_obj, excBind_ok]
      obtain ⟨kvs2, h1, h2, h3⟩ := ih (setEntry kvs n (h ((lookupEntry kvs n).getD .undef)))
      refine ⟨kvs2, h1, ?_, ?_⟩
      · rw [h2, lookupEntry_setEntry_self]
        simp [hu]
      · intro k hk
        rw [h3 k hk, lookupEntry_setEntry_other _ _ _ _ hk]

/-- The hook chain on the per-locale fan-out path (localized field in
the all-locales or unflattened case, object slot): each hook step
re-takes the fan-out branch, and every locale key's value ends as the
left fold of the hooks in declared order with defined-only write-back;
the locale key set and every other sibling key are untouched. -/
theorem runHookChain_localized_spec (ctx : Ctx) (field : FieldDef) (n : String)
    (hloc : field.localized = true)
    (hmode : ctx.locale = some "all" ∨ ctx.flattenLocales = false) :
    ∀ (hooks : List (JValue → JValue)) (kvs lvs : List (String × JValue)),
      lookupEntry kvs n = some (.obj lvs) →
      (lvs.map Prod.fst).Nodup →
      ∃ kvs2 lvs2, runHookChain ctx field n hooks (.obj kvs) = .ok (.obj kvs2) ∧
        lookupEntry kvs2 n = some (.obj lvs2) ∧
        lvs2.map Prod.fst = lvs.map Prod.fst ∧
        (∀ k v, lookupEntry lvs k = some v →
          lookupEntry lvs2 k =
            some (hooks.foldl (fun v h => if (h v).isUndef then v else h v) v)) ∧
        (∀ k, k ≠ n → lookupEntry kvs2 k = lookupEntry kvs k) := by
  intro hooks
  induction hooks with
  | nil =>
    intro kvs lvs hslot hnd
    exact ⟨kvs, lvs, rfl, hslot, rfl, fun k v hv => by simpa using hv, fun _ _ => rfl⟩
  | cons f rest ih =>
    intro kvs lvs hslot hnd
    have hsa : (field.localized && (ctx.locale == some "all" || !ctx.flattenLocales) &&
        isJsObjectType (JValue.obj lvs)) = true := by
      rcases hmode with hm | hm <;> simp [hloc, hm, isJsObjectType, jsTypeof]
    simp only [runHookChain, jsGet_obj, excBind_ok, hslot, Option.getD_some]
    rw [hsa, if_pos rfl]
    simp only [jsEntries_obj, excBind_ok]
    obtain ⟨kvsM, hrunA, hlookA, hoA⟩ := runHookAllLocales_spec f n lvs kvs lvs hslot
    rw [hrunA]
    simp only [excBind_ok]
    have hkeysStep : (lvs.foldl (localeWriteBack f) lvs).map Prod.fst = lvs.map Prod.fst :=
      foldl_writeBack_fst f lvs lvs (fun p hp => List.mem_map_of_mem Prod.fst hp)
    have hndStep : ((lvs.foldl (localeWriteBack f) lvs).map Prod.fst).Nodup := by
      rw [hkeysStep]
      exact hnd
    obtain ⟨kvs2, lvs2, hrun2, hlook2, hkeys2, hpt2, ho2⟩ :=
      ih kvsM (lvs.foldl (localeWriteBack f) lvs) hlookA hndStep
    refine ⟨kvs2, lvs2, hrun2, hlook2, hkeys2.trans hkeysStep, ?_, ?_⟩
    · intro k v hkv
      have hstep := foldl_writeBack_lookup f lvs lvs k v hnd hkv hkv
      have hrest := hpt2 k _ hstep
      simpa [List.foldl_cons] using hrest
    · intro k hk
      rw [ho2 k hk, hoA k hk]

/-- C2.  Hooks run strictly in declared order with write-back only
when a hook returns a defined value, on both paths the source takes:
(1) for a non-localized field the slot ends as the left fold of the
hooks over the initial value, each hook receiving the previous hook's
result (undefined leaves the previous value); (2) for a localized
field in the all-locales or unflattened case whose slot is a
per-locale map (a JS object, so its keys are duplicate-free), every
locale key's value ends as the same left fold of the hooks over that
locale's initial value and the locale key set is unchanged; in both
cases every other sibling key is untouched.  `promiseF` invokes this
chain exactly for data-affecting fields when hook execution
(`triggerHooks`) is enabled. -/
theorem c2_hook_chain_order (ctx : Ctx) (field : FieldDef) (n : String)
    (kvs : List (String × JValue)) :
    (field.localized = false →
      ∃ kvs2, runHookChain ctx field n field.hooks (.obj kvs) = .ok (.obj kvs2) ∧
        (lookupEntry kvs2 n).getD .undef =
          field.hooks.foldl (fun v h => if (h v).isUndef then v else h v)
            ((lookupEntry kvs n).getD .undef) ∧
        (∀ k, k ≠ n → lookupEntry kvs2 k = lookupEntry kvs k)) ∧
    (∀ lvs, field.localized = true →
      (ctx.locale = some "all" ∨ ctx.flattenLocales = false) →
      lookupEntry kvs n = some (.obj lvs) →
      (lvs.map Prod.fst).Nodup →
      ∃ kvs2 lvs2, runHookChain ctx field n field.hooks (.obj kvs) = .ok (.obj kvs2) ∧
        lookupEntry kvs2 n = some (.obj lvs2) ∧
        lvs2.map Prod.fst = lvs.map Prod.fst ∧
        (∀ k v, lookupEntry lvs k = some v →
          lookupEntry lvs2 k =
            some (field.hooks.foldl (fun v h => if (h v).isUndef then v else h v) v)) ∧
        (∀ k, k ≠ n → lookupEntry kvs2 k = lookupEntry kvs k)) := by
  constructor
  · intro hloc
    exact runHookChain_nonlocalized_spec ctx field n hloc field.hooks kvs
  · intro lvs hloc hmode hslot hnd
    exact runHookChain_localized_spec ctx field n hloc hmode field.hooks kvs lvs hslot hnd

/-- The second hook of the C2 witness: uppercase the string value. -/
def upperHook : JValue → JValue
  | .str s => .str (String.mk (s.toList.map Char.toUpper))
  | _ => (.undef : JValue)

/-- A non-localized field with the hook chain of C2's example: h1
returns "a", h2 uppercases its input value. -/
def fieldHooked : FieldDef :=
  .mk (some "v") false false [fun _ => .str "a", upperHook] none none .text

/-- A localized field with the same hook chain (witness for the
per-locale fan-out path of C2). -/
def fieldHookedLoc : FieldDef :=
  .mk (some "v") true false [fun _ => .str "a", upperHook] none none .text

/-- A witness context requesting the all-locales view: like `ctxW` but
with locale "all". -/
def ctxAllW : Ctx := { ctxW with locale := some "all" }

theorem c2_hook_chain_order_witness :
    (∃ kvs2,
      runHookChain ctxW fieldHooked "v" fieldHooked.hooks (.obj [("v", .str "z")]) =
        .ok (.obj kvs2) ∧
      (lookupEntry kvs2 "v").getD .undef = .str "A") ∧
    (∃ kvs2 lvs2,
      runHookChain ctxAllW fieldHookedLoc "v" fieldHookedLoc.hooks
          (.obj [("v", .obj [("en", .str "z"), ("fr", .str "q")])]) = .ok (.obj kvs2) ∧
      lookupEntry kvs2 "v" = some (.obj lvs2) ∧
      lookupEntry lvs2 "en" = some (.str "A") ∧
      lookupEntry lvs2 "fr" = some (.str "A")) := by
  constructor
  · obtain ⟨kvs2, h1, h2, h3⟩ :=
      (c2_hook_chain_order ctxW fieldHooked "v" [("v", .str "z")]).1 rfl
    exact ⟨kvs2, h1, h2.trans rfl⟩
  · obtain ⟨kvs2, lvs2, h1, h2, h3, h4, h5⟩ :=
      (c2_hook_chain_order ctxAllW fieldHookedLoc "v"
        [("v", .obj [("en", .str "z"), ("fr", .str "q")])]).2
        [("en", .str "z"), ("fr", .str "q")] rfl (Or.inl rfl) rfl (by decide)
    exact ⟨kvs2, lvs2, h1, h2, (h4 "en" (.str "z") rfl).trans rfl,
      (h4 "fr" (.str "q") rfl).trans rfl⟩

/-! ### C3: read access denial -/

/-- C3.  For a data-affecting field with a read-access predicate, when
access is not globally overridden and the predicate denies, the
field's key is removed from the sibling entirely (no entry with that
key remains; every other key is untouched) and default-value
substitution is suppressed in the same pass even when a default is
configured; when access is globally overridden the predicate is never
consulted (the result is the same for every predicate) and access is
granted. -/
theorem c3_access_denial (ctx : Ctx) (field : FieldDef) (n : String)
    (kvs : List (String × JValue)) (pred : JValue → JValue → Bool)
    (hacc : field.access = some pred) (htrig : ctx.triggerAccessControl = true) :
    (ctx.overrideAccess = false → pred ctx.doc (.obj kvs) = false →
      ∃ kvs2, accessStage ctx field n (.obj kvs) = .ok (.obj kvs2, false) ∧
        (∀ p ∈ kvs2, p.1 ≠ n) ∧
        (∀ k, k ≠ n → lookupEntry kvs2 k = lookupEntry kvs k) ∧
        defaultStage ctx field n (.obj kvs2) false = .ok (.obj kvs2)) ∧
    (ctx.overrideAccess = true →
      accessStage ctx field n (.obj kvs) = .ok (.obj kvs, true)) := by
  constructor
  · intro hov hdeny
    refine ⟨delEntry kvs n, ?_, delEntry_not_mem kvs n,
      fun k hk => lookupEntry_delEntry_other kvs n k hk, ?_⟩
    · simp [accessStage, hacc, htrig, hov, hdeny, jsDelete_obj, excBind_ok, excPure]
    · cases hdv : field.defaultValue <;>
        simp [defaultStage, hdv, jsGet_obj, excBind_ok, excPure]
  · intro hov
    simp [accessStage, hacc, htrig, hov, excPure]

/-- A field whose read access always denies, with a configured default
(witness for C3). -/
def fieldDenied : FieldDef :=
  .mk (some "sec") false false [] (some fun _ _ => false)
    (some (.literal (.str "dflt"))) .text

theorem c3_access_denial_witness :
    ∃ kvs2, accessStage ctxW fieldDenied "sec" (.obj [("sec", .str "x")]) =
        .ok (.obj kvs2, false) ∧
      (∀ p ∈ kvs2, p.1 ≠ "sec") ∧
      defaultStage ctxW fieldDenied "sec" (.obj kvs2) false = .ok (.obj kvs2) := by
  obtain ⟨kvs2, h1, h2, h3, h4⟩ :=
    (c3_access_denial ctxW fieldDenied "sec" [("sec", .str "x")] (fun _ _ => false)
      rfl rfl).1 rfl rfl
  exact ⟨kvs2, h1, h2, h4⟩

/-! ### C4: point field sanitization -/

/-- C4.  For a `point` field, sanitization rewrites a stored value
whose `coordinates` property is a two-element array to just that
array, and rewrites every other stored value (malformed, partial or
absent coordinates — looked up through optional chaining, so even
`null`/`undefined` stored values) to `undefined`, never throwing;
the other keys of the sibling are untouched. -/
theorem c4_point_sanitize (field : FieldDef) (n : String)
    (kvs : List (String × JValue)) (hname : field.name = some n)
    (hty : field.ty = .point) :
    ∃ kvs2, sanitizeStage field (.obj kvs) = .ok (.obj kvs2) ∧
      (lookupEntry kvs2 n).getD .undef =
        (match ((lookupEntry kvs n).getD .undef).optChainGet "coordinates" with
         | .arr l => if l.length = 2 then .arr l else .undef
         | _ => .undef) ∧
      (∀ k, k ≠ n → lookupEntry kvs2 k = lookupEntry kvs k) := by
  simp only [sanitizeStage, hty, FieldDef.nameKey, hname, Option.getD_some, jsGet_obj,
    excBind_ok]
  cases hc : ((lookupEntry kvs n).getD .undef).optChainGet "coordinates" with
  | arr l =>
    by_cases hl : l.length = 2
    · have hb : (l.length == 2) = true := by simpa using hl
      refine ⟨setEntry kvs n (.arr l), ?_, ?_, ?_⟩
      · simp [hb, jsSet_obj]
      · simp [hl, lookupEntry_setEntry_self]
      · intro k hk
        exact lookupEntry_setEntry_other _ _ _ _ hk
    · have hb : (l.length == 2) = false := by simpa using hl
      refine ⟨setEntry kvs n .undef, ?_, ?_, ?_⟩
      · simp [hb, jsSet_obj]
      · simp [hl, lookupEntry_setEntry_self]
      · intro k hk
        exact lookupEntry_setEntry_other _ _ _ _ hk
  | undef =>
    exact ⟨setEntry kvs n .undef, by simp [jsSet_obj], by simp [lookupEntry_setEntry_self],
      fun k hk => lookupEntry_setEntry_other _ _ _ _ hk⟩
  | null =>
    exact ⟨setEntry kvs n .undef, by simp [jsSet_obj], by simp [lookupEntry_setEntry_self],
      fun k hk => lookupEntry_setEntry_other _ _ _ _ hk⟩
  | bool b =>
    exact ⟨setEntry kvs n .undef, by simp [jsSet_obj], by simp [lookupEntry_setEntry_self],
      fun k hk => lookupEntry_setEntry_other _ _ _ _ hk⟩
  | num m =>
    exact ⟨setEntry kvs n .undef, by simp [jsSet_obj], by simp [lookupEntry_setEntry_self],
      fun k hk => lookupEntry_setEntry_other _ _ _ _ hk⟩
  | str s =>
    exact ⟨setEntry kvs n .undef, by simp [jsSet_obj], by simp [lookupEntry_setEntry_self],
      fun k hk => lookupEntry_setEntry_other _ _ _ _ hk⟩
  | obj o =>
    exact ⟨setEntry kvs n .undef, by simp [jsSet_obj], by simp [lookupEntry_setEntry_self],
      fun k hk => lookupEntry_setEntry_other _ _ _ _ hk⟩

/-- A point field named "loc" (witness for C4). -/
def fieldPoint : FieldDef := .mk (some "loc") false false [] none none .point

theorem c4_point_sanitize_witness :
    (∃ kvs2, sanitizeStage fieldPoint
        (.obj [("loc", .obj [("coordinates", .arr [.num 1, .num 2]), ("type", .str "Point")])]) =
          .ok (.obj kvs2) ∧
      (lookupEntry kvs2 "loc").getD .undef = .arr [.num 1, .num 2]) ∧
    (∃ kvs2, sanitizeStage fieldPoint (.obj [("loc", .obj [("coordinates", .arr [.num 1])])]) =
        .ok (.obj kvs2) ∧
      (lookupEntry kvs2 "loc").getD .undef = .undef) := by
  constructor
  · obtain ⟨kvs2, h1, h2, h3⟩ := c4_point_sanitize fieldPoint "loc"
      [("loc", .obj [("coordinates", .arr [.num 1, .num 2]), ("type", .str "Point")])] rfl rfl
    exact ⟨kvs2, h1, h2.trans rfl⟩
  · obtain ⟨kvs2, h1, h2, h3⟩ := c4_point_sanitize fieldPoint "loc"
      [("loc", .obj [("coordinates", .arr [.num 1])])] rfl rfl
    exact ⟨kvs2, h1, h2.trans rfl⟩

/-! ### C5: array traversal -/

/-- Claim-side meaning (C5) of "recurses into each element with the
element's index appended to the instance path and the schema path
unchanged": the result sequence has the same length, and each position
holds the traversal's output for that element — or the untouched
original element when it was falsy (the source recurses into a
discarded fresh `{}` in that case). -/
def rowsTraversedBy (tf : TraverseFun) (ctx : Ctx) (fs : List FieldDef)
    (path : List Seg) (spath : List String) (rs rs2 : List JValue) : Prop :=
  rs2.length = rs.length ∧
  ∀ j (hj : j < rs.length) (hj2 : j < rs2.length), ∃ pIn r pOut,
    tf ctx fs (path ++ [Seg.idx j]) spath
      (if truthy (rs.get ⟨j, hj⟩) then rs.get ⟨j, hj⟩ else JValue.obj []) pIn =
        .ok (r, pOut) ∧
    rs2.get ⟨j, hj2⟩ = (if truthy (rs.get ⟨j, hj⟩) then r else rs.get ⟨j, hj⟩)

theorem traverseRows_ok (tf : TraverseFun) (ctx : Ctx) (fs : List FieldDef)
    (path : List Seg) (spath : List String) :
    ∀ (rows : List JValue) (i : Nat) (pops : List PopTask) rows2 pops2,
      traverseRows tf ctx fs path spath i rows pops = .ok (rows2, pops2) →
      rows2.length = rows.length ∧
      ∀ j (hj : j < rows.length) (hj2 : j < rows2.length), ∃ pIn r pOut,
        tf ctx fs (path ++ [Seg.idx (i + j)]) spath
          (if truthy (rows.get ⟨j, hj⟩) then rows.get ⟨j, hj⟩ else JValue.obj []) pIn =
            .ok (r, pOut) ∧
        rows2.get ⟨j, hj2⟩ = (if truthy (rows.get ⟨j, hj⟩) then r else rows.get ⟨j, hj⟩) := by
  intro rows
  induction rows with
  | nil =>
    intro i pops rows2 pops2 heq
    simp only [traverseRows, excPure] at heq
    cases heq
    exact ⟨rfl, fun j hj => absurd hj (by simp)⟩
  | cons row rest ih =>
    intro i pops rows2 pops2 heq
    simp only [traverseRows] at heq
    cases htf : tf ctx fs (path ++ [Seg.idx i]) spath
        (if truthy row then row else JValue.obj []) pops with
    | error e => rw [htf] at heq; exact absurd heq (by simp [excBind_err])
    | ok pr =>
      obtain ⟨rowB, popsB⟩ := pr
      rw [htf] at heq
      simp only [excBind_ok] at heq
      cases hrec : traverseRows tf ctx fs path spath (i + 1) rest popsB with
      | error e => rw [hrec] at heq; exact absurd heq (by simp [excBind_err])
      | ok pr2 =>
        obtain ⟨restB, popsC⟩ := pr2
        rw [hrec] at heq
        simp only [excBind_ok, excPure] at heq
        cases heq
        obtain ⟨hlen, hpt⟩ := ih (i + 1) popsB restB _ hrec
        refine ⟨by simp [hlen], ?_⟩
        intro j hj hj2
        cases j with
        | zero =>
          refine ⟨pops, rowB, popsB, ?_, ?_⟩
          · simpa using htf
          · simp
        | succ jp =>
          have hjp : jp < rest.length := by simpa using hj
          have hjp2 : jp < restB.length := by simpa using hj2
          obtain ⟨pIn, r, pOut, h1, h2⟩ := hpt jp hjp hjp2
          refine ⟨pIn, r, pOut, ?_, ?_⟩
          · have hidx : i + 1 + jp = i + (jp + 1) := by omega
            rw [hidx] at h1
            simpa using h1
          · simpa using h2

theorem traverseRows_ok_zero (tf : TraverseFun) (ctx : Ctx) (fs : List FieldDef)
    (path : List Seg) (spath : List String) (rows : List JValue) (pops : List PopTask)
    (rows2 : List JValue) (pops2 : List PopTask)
    (heq : traverseRows tf ctx fs path spath 0 rows pops = .ok (rows2, pops2)) :
    rowsTraversedBy tf ctx fs path spath rows rows2 := by
  obtain ⟨hlen, hpt⟩ := traverseRows_ok tf ctx fs path spath rows 0 pops rows2 pops2 heq
  refine ⟨hlen, ?_⟩
  intro j hj hj2
  simpa using hpt j hj hj2

theorem traverseLocaleRows_cons_notArr (tf : TraverseFun) (ctx : Ctx) (fs : List FieldDef)
    (path : List Seg) (spath : List String) (k : String) (lv : JValue)
    (rest : List (String × JValue)) (pops : List PopTask) (hno : lv.isArr = false) :
    traverseLocaleRows tf ctx fs path spath ((k, lv) :: rest) pops =
      (do
        let d ← traverseLocaleRows tf ctx fs path spath rest pops
        pure ((k, lv) :: d.1, d.2)) := by
  cases lv <;> simp_all [traverseLocaleRows, JValue.isArr]

theorem traverseLocaleRows_ok (tf : TraverseFun) (ctx : Ctx) (fs : List FieldDef)
    (path : List Seg) (spath : List String) :
    ∀ (entries : List (String × JValue)) (pops : List PopTask) entries2 pops2,
      traverseLocaleRows tf ctx fs path spath entries pops = .ok (entries2, pops2) →
      entries2.length = entries.length ∧
      ∀ j (hj : j < entries.length) (hj2 : j < entries2.length),
        (entries2.get ⟨j, hj2⟩).1 = (entries.get ⟨j, hj⟩).1 ∧
        (∀ rs, (entries.get ⟨j, hj⟩).2 = .arr rs →
          ∃ rs2, (entries2.get ⟨j, hj2⟩).2 = .arr rs2 ∧
            rowsTraversedBy tf ctx fs path spath rs rs2) ∧
        ((entries.get ⟨j, hj⟩).2.isArr = false →
          entries2.get ⟨j, hj2⟩ = entries.get ⟨j, hj⟩) := by
  intro entries
  induction entries with
  | nil =>
    intro pops entries2 pops2 heq
    simp only [traverseLocaleRows, excPure] at heq
    cases heq
    exact ⟨rfl, fun j hj => absurd hj (by simp)⟩
  | cons e rest ih =>
    obtain ⟨k, lv⟩ := e
    intro pops entries2 pops2 heq
    cases hlv : lv.isArr with
    | true =>
      obtain ⟨rs, rfl⟩ : ∃ rs, lv = JValue.arr rs := by
        cases lv <;> first
        | exact ⟨_, rfl⟩
        | simp_all [JValue.isArr]
      simp only [traverseLocaleRows] at heq
      cases hrows : traverseRows tf ctx fs path spath 0 rs pops with
      | error er => rw [hrows] at heq; exact absurd heq (by simp [excBind_err])
      | ok pr =>
        obtain ⟨rsB, popsB⟩ := pr
        rw [hrows] at heq
        simp only [excBind_ok] at heq
        cases hrec : traverseLocaleRows tf ctx fs path spath rest popsB with
        | error er => rw [hrec] at heq; exact absurd heq (by simp [excBind_err])
        | ok pr2 =>
          obtain ⟨restB, popsC⟩ := pr2
          rw [hrec] at heq
          simp only [excBind_ok, excPure] at heq
          cases heq
          obtain ⟨hlen, hpt⟩ := ih popsB restB _ hrec
          refine ⟨by simp [hlen], ?_⟩
          intro j hj hj2
          cases j with
          | zero =>
            refine ⟨rfl, ?_, ?_⟩
            · intro rs0 hrs0
              simp only [List.get] at hrs0 ⊢
              cases hrs0
              exact ⟨rsB, rfl, traverseRows_ok_zero tf ctx fs path spath _ _ _ _ hrows⟩
            · intro hfalse
              simp [JValue.isArr] at hfalse
          | succ jp =>
            have hjp : jp < rest.length := by simpa using hj
            have hjp2 : jp < restB.length := by simpa using hj2
            obtain ⟨ha, hb, hc⟩ := hpt jp hjp hjp2
            exact ⟨by simpa using ha, by simpa using hb, by simpa using hc⟩
    | false =>
      rw [traverseLocaleRows_cons_notArr tf ctx fs path spath k lv rest pops hlv] at heq
      cases hrec : traverseLocaleRows tf ctx fs path spath rest pops with
      | error er => rw [hrec] at heq; exact absurd heq (by simp [excBind_err])
      | ok pr2 =>
        obtain ⟨restB, popsB⟩ := pr2
        rw [hrec] at heq
        simp only [excBind_ok, excPure] at heq
        cases heq
        obtain ⟨hlen, hpt⟩ := ih pops restB _ hrec
        refine ⟨by simp [hlen], ?_⟩
        intro j hj hj2
        cases j with
        | zero =>
          refine ⟨rfl, ?_, fun _ => rfl⟩
          intro rs0 hrs0
          simp only [List.get] at hrs0
          rw [hrs0] at hlv
          simp [JValue.isArr] at hlv
        | succ jp =>
          have hjp : jp < rest.length := by simpa using hj
          have hjp2 : jp < restB.length := by simpa using hj2
          obtain ⟨ha, hb, hc⟩ := hpt jp hjp hjp2
          exact ⟨by simpa using ha, by simpa using hb, by simpa using hc⟩


/-- C5.  For an `array` field: a sequence slot is walked element by
element — each element traversed with its index appended to the
instance path and the schema path unchanged (`rowsTraversedBy`); an
unflattened per-locale mapping (non-hoisted object slot) has each
locale's sequence walked independently the same way, non-sequence
locale entries untouched; every other slot shape — including a hoisted
non-array value — is coerced to the empty sequence. -/
theorem c5_array_traversal (tf : TraverseFun) (ctx : Ctx) (field : FieldDef)
    (fs : List FieldDef) (n : String) (sh : Bool) (path : List Seg)
    (spath : List String) (kvs : List (String × JValue)) (pops : List PopTask)
    (hty : field.ty = .array fs) (hname : field.name = some n) :
    (∀ rs sib2 pops2, (lookupEntry kvs n).getD .undef = .arr rs →
      traverseStage tf ctx field sh path spath (.obj kvs) pops = .ok (sib2, pops2) →
      ∃ rs2, sib2 = .obj (setEntry kvs n (.arr rs2)) ∧
        rowsTraversedBy tf ctx fs path spath rs rs2) ∧
    (∀ les sib2 pops2, (lookupEntry kvs n).getD .undef = .obj les → sh = false →
      traverseStage tf ctx field sh path spath (.obj kvs) pops = .ok (sib2, pops2) →
      ∃ les2, sib2 = .obj (setEntry kvs n (.obj les2)) ∧
        les2.length = les.length ∧
        ∀ j (hj : j < les.length) (hj2 : j < les2.length),
          (les2.get ⟨j, hj2⟩).1 = (les.get ⟨j, hj⟩).1 ∧
          (∀ rs, (les.get ⟨j, hj⟩).2 = .arr rs →
            ∃ rs2, (les2.get ⟨j, hj2⟩).2 = .arr rs2 ∧
              rowsTraversedBy tf ctx fs path spath rs rs2) ∧
          ((les.get ⟨j, hj⟩).2.isArr = false →
            les2.get ⟨j, hj2⟩ = les.get ⟨j, hj⟩)) ∧
    (∀ v, (lookupEntry kvs n).getD .undef = v → v.isArr = false →
      (sh = true ∨ isNonNullJsObject v = false) →
      traverseStage tf ctx field sh path spath (.obj kvs) pops =
        .ok (.obj (setEntry kvs n (.arr [])), pops)) := by
  refine ⟨?_, ?_, ?_⟩
  · intro rs sib2 pops2 hslot hrun
    simp only [traverseStage, hty, FieldDef.nameKey, hname, Option.getD_some, jsGet_obj,
      excBind_ok, hslot] at hrun
    cases hrows : traverseRows tf ctx fs path spath 0 rs pops with
    | error e => rw [hrows] at hrun; exact absurd hrun (by simp [excBind_err])
    | ok pr =>
      obtain ⟨rsB, popsB⟩ := pr
      rw [hrows] at hrun
      simp only [excBind_ok, jsSet_obj, excPure] at hrun
      cases hrun
      exact ⟨rsB, rfl, traverseRows_ok_zero tf ctx fs path spath _ _ _ _ hrows⟩
  · intro les sib2 pops2 hslot hsh hrun
    simp only [traverseStage, hty, FieldDef.nameKey, hname, Option.getD_some, jsGet_obj,
      excBind_ok, hslot, hsh, isNonNullJsObject, Bool.not_false, Bool.and_true,
      if_true, jsEntries_obj] at hrun
    cases hloc : traverseLocaleRows tf ctx fs path spath les pops with
    | error e => rw [hloc] at hrun; exact absurd hrun (by simp [excBind_err])
    | ok pr =>
      obtain ⟨lesB, popsB⟩ := pr
      rw [hloc] at hrun
      simp only [excBind_ok, jsSet_obj, excPure] at hrun
      cases hrun
      obtain ⟨hlen, hpt⟩ := traverseLocaleRows_ok tf ctx fs path spath les pops lesB _ hloc
      exact ⟨lesB, rfl, hlen, hpt⟩
  · intro v hslot hvarr hcond
    cases v with
    | arr l => simp [JValue.isArr] at hvarr
    | obj o =>
      have hsh : sh = true := by
        rcases hcond with h | h
        · exact h
        · simp [isNonNullJsObject] at h
      simp only [traverseStage, hty, FieldDef.nameKey, hname, Option.getD_some, jsGet_obj,
        excBind_ok, hslot, hsh, Bool.not_true, Bool.false_and, if_false, jsSet_obj,
        excPure]
      rfl
    | undef =>
      simp only [traverseStage, hty, FieldDef.nameKey, hname, Option.getD_some, jsGet_obj,
        excBind_ok, hslot, isNonNullJsObject, Bool.and_false, if_false, jsSet_obj, excPure]
      rfl
    | null =>
      simp only [traverseStage, hty, FieldDef.nameKey, hname, Option.getD_some, jsGet_obj,
        excBind_ok, hslot, isNonNullJsObject, Bool.and_false, if_false, jsSet_obj, excPure]
      rfl
    | bool b =>
      simp only [traverseStage, hty, FieldDef.nameKey, hname, Option.getD_some, jsGet_obj,
        excBind_ok, hslot, isNonNullJsObject, Bool.and_false, if_false, jsSet_obj, excPure]
      rfl
    | num m =>
      simp only [traverseStage, hty, FieldDef.nameKey, hname, Option.getD_some, jsGet_obj,
        excBind_ok, hslot, isNonNullJsObject, Bool.and_false, if_false, jsSet_obj, excPure]
      rfl
    | str st =>
      simp only [traverseStage, hty, FieldDef.nameKey, hname, Option.getD_some, jsGet_obj,
        excBind_ok, hslot, isNonNullJsObject, Bool.and_false, if_false, jsSet_obj, excPure]
      rfl

/-- Identity traversal function used by witnesses: leaves sibling and
queue unchanged. -/
def tfId : TraverseFun := fun _ _ _ _ sibling pops => .ok (sibling, pops)

/-- An array field named "a" with an empty sub-schema (witness for
C5). -/
def fieldArr : FieldDef := .mk (some "a") false false [] none none (.array [])

theorem c5_array_traversal_witness :
    (∃ rs2, (JValue.obj [("a", JValue.arr [JValue.obj [("x", JValue.num 1)]])]) =
        .obj (setEntry [("a", JValue.arr [JValue.obj [("x", JValue.num 1)]])] "a"
          (.arr rs2)) ∧
      rowsTraversedBy tfId ctxW [] [Seg.key "a"] ["a"]
        [JValue.obj [("x", JValue.num 1)]] rs2) ∧
    traverseStage tfId ctxW fieldArr false [Seg.key "a"] ["a"]
        (.obj [("a", JValue.null)]) [] =
      .ok (.obj (setEntry [("a", JValue.null)] "a" (.arr [])), []) := by
  constructor
  · exact (c5_array_traversal tfId ctxW fieldArr [] "a" false [Seg.key "a"] ["a"]
      [("a", JValue.arr [JValue.obj [("x", JValue.num 1)]])] [] rfl rfl).1
      [JValue.obj [("x", JValue.num 1)]] _ _ rfl rfl
  · exact (c5_array_traversal tfId ctxW fieldArr [] "a" false [Seg.key "a"] ["a"]
      [("a", JValue.null)] [] rfl rfl).2.2 JValue.null rfl rfl (Or.inr rfl)

/-! ### C6: blocks rows with unmatched discriminators -/

theorem jsGet_eq_optChainGet (v : JValue) (k : String) (r : JValue)
    (h : v.jsGet k = .ok r) : r = v.optChainGet k := by
  cases v <;> simp_all [JValue.jsGet, JValue.optChainGet]

theorem traverseBlockRows_ok (tf : TraverseFun) (ctx : Ctx)
    (blocks : List (String × List FieldDef)) (path : List Seg) (spath : List String) :
    ∀ (rows : List JValue) (i : Nat) (pops : List PopTask) rows2 pops2,
      traverseBlockRows tf ctx blocks path spath i rows pops = .ok (rows2, pops2) →
      rows2.length = rows.length ∧
      ∀ j (hj : j < rows.length) (hj2 : j < rows2.length),
        (findBlock blocks ((rows.get ⟨j, hj⟩).optChainGet "blockType") = none →
          rows2.get ⟨j, hj2⟩ = rows.get ⟨j, hj⟩) ∧
        (∀ slug bfs,
          findBlock blocks ((rows.get ⟨j, hj⟩).optChainGet "blockType") = some (slug, bfs) →
          ∃ pIn r pOut,
            tf ctx bfs (path ++ [Seg.idx (i + j)]) spath
              (if truthy (rows.get ⟨j, hj⟩) then rows.get ⟨j, hj⟩ else JValue.obj []) pIn =
                .ok (r, pOut) ∧
            rows2.get ⟨j, hj2⟩ =
              (if truthy (rows.get ⟨j, hj⟩) then r else rows.get ⟨j, hj⟩)) := by
  intro rows
  induction rows with
  | nil =>
    intro i pops rows2 pops2 heq
    simp only [traverseBlockRows, excPure] at heq
    cases heq
    exact ⟨rfl, fun j hj => absurd hj (by simp)⟩
  | cons row rest ih =>
    intro i pops rows2 pops2 heq
    simp only [traverseBlockRows] at heq
    cases hbt : row.jsGet "blockType" with
    | error e => rw [hbt] at heq; exact absurd heq (by simp [excBind_err])
    | ok bt =>
      have hbt2 : bt = row.optChainGet "blockType" := jsGet_eq_optChainGet row _ bt hbt
      rw [hbt] at heq
      simp only [excBind_ok] at heq
      cases hfb : findBlock blocks bt with
      | some b =>
        obtain ⟨slug, bfs⟩ := b
        rw [hfb] at heq
        simp only at heq
        cases htf : tf ctx bfs (path ++ [Seg.idx i]) spath
            (if truthy row then row else JValue.obj []) pops with
        | error e => rw [htf] at heq; exact absurd heq (by simp [excBind_err])
        | ok pr =>
          obtain ⟨rowB, popsB⟩ := pr
          rw [htf] at heq
          simp only [excBind_ok] at heq
          cases hrec : traverseBlockRows tf ctx blocks path spath (i + 1) rest popsB with
          | error e => rw [hrec] at heq; exact absurd heq (by simp [excBind_err])
          | ok pr2 =>
            obtain ⟨restB, popsC⟩ := pr2
            rw [hrec] at heq
            simp only [excBind_ok, excPure] at heq
            cases heq
            obtain ⟨hlen, hpt⟩ := ih (i + 1) popsB restB _ hrec
            refine ⟨by simp [hlen], ?_⟩
            intro j hj hj2
            cases j with
            | zero =>
              constructor
              · intro hnone
                simp only [List.get] at hnone
                rw [← hbt2] at hnone
                rw [hnone] at hfb
                exact absurd hfb (by simp)
              · intro slug2 bfs2 hsome
                simp only [List.get] at hsome ⊢
                rw [← hbt2] at hsome
                rw [hfb] at hsome
                cases hsome
                exact ⟨pops, rowB, popsB, by simpa using htf, by simp⟩
            | succ jp =>
              have hjp : jp < rest.length := by simpa using hj
              have hjp2 : jp < restB.length := by simpa using hj2
              obtain ⟨ha, hb⟩ := hpt jp hjp hjp2
              constructor
              · intro hnone
                simpa using ha (by simpa using hnone)
              · intro slug2 bfs2 hsome
                obtain ⟨pIn, r, pOut, h1, h2⟩ := hb slug2 bfs2 (by simpa using hsome)
                refine ⟨pIn, r, pOut, ?_, by simpa using h2⟩
                have hidx : i + 1 + jp = i + (jp + 1) := by omega
                rw [hidx] at h1
                simpa using h1
      | none =>
        rw [hfb] at heq
        simp only at heq
        cases hrec : traverseBlockRows tf ctx blocks path spath (i + 1) rest pops with
        | error e => rw [hrec] at heq; exact absurd heq (by simp [excBind_err])
        | ok pr2 =>
          obtain ⟨restB, popsB⟩ := pr2
          rw [hrec] at heq
          simp only [excBind_ok, excPure] at heq
          cases heq
          obtain ⟨hlen, hpt⟩ := ih (i + 1) pops restB _ hrec
          refine ⟨by simp [hlen], ?_⟩
          intro j hj hj2
          cases j with
          | zero =>
            constructor
            · intro _
              simp
            · intro slug2 bfs2 hsome
              simp only [List.get] at hsome
              rw [← hbt2] at hsome
              rw [hsome] at hfb
              exact absurd hfb (by simp)
          | succ jp =>
            have hjp : jp < rest.length := by simpa using hj
            have hjp2 : jp < restB.length := by simpa using hj2
            obtain ⟨ha, hb⟩ := hpt jp hjp hjp2
            constructor
            · intro hnone
              simpa using ha (by simpa using hnone)
            · intro slug2 bfs2 hsome
              obtain ⟨pIn, r, pOut, h1, h2⟩ := hb slug2 bfs2 (by simpa using hsome)
              refine ⟨pIn, r, pOut, ?_, by simpa using h2⟩
              have hidx : i + 1 + jp = i + (jp + 1) := by omega
              rw [hidx] at h1
              simpa using h1

/-- C6.  For a `blocks` field whose slot holds a sequence: a row whose
`blockType` discriminator matches no configured block's slug is not
recursed into and not removed — its value after traversal is the value
before — while a row with a matching slug is traversed with that
block's sub-schema (index appended to the instance path, schema path
unchanged); the sequence keeps its length. -/
theorem c6_blocks_unmatched (tf : TraverseFun) (ctx : Ctx) (field : FieldDef)
    (bs : List (String × List FieldDef)) (n : String) (sh : Bool) (path : List Seg)
    (spath : List String) (kvs : List (String × JValue)) (pops : List PopTask)
    (rs : List JValue) (sib2 : JValue) (pops2 : List PopTask)
    (hty : field.ty = .blocks bs) (hname : field.name = some n)
    (hslot : (lookupEntry kvs n).getD .undef = .arr rs)
    (hrun : traverseStage tf ctx field sh path spath (.obj kvs) pops = .ok (sib2, pops2)) :
    ∃ rs2, sib2 = .obj (setEntry kvs n (.arr rs2)) ∧ rs2.length = rs.length ∧
      ∀ j (hj : j < rs.length) (hj2 : j < rs2.length),
        (findBlock bs ((rs.get ⟨j, hj⟩).optChainGet "blockType") = none →
          rs2.get ⟨j, hj2⟩ = rs.get ⟨j, hj⟩) ∧
        (∀ slug bfs,
          findBlock bs ((rs.get ⟨j, hj⟩).optChainGet "blockType") = some (slug, bfs) →
          ∃ pIn r pOut,
            tf ctx bfs (path ++ [Seg.idx j]) spath
              (if truthy (rs.get ⟨j, hj⟩) then rs.get ⟨j, hj⟩ else JValue.obj []) pIn =
                .ok (r, pOut) ∧
            rs2.get ⟨j, hj2⟩ = (if truthy (rs.get ⟨j, hj⟩) then r else rs.get ⟨j, hj⟩)) := by
  simp only [traverseStage, hty, FieldDef.nameKey, hname, Option.getD_some, jsGet_obj,
    excBind_ok, hslot] at hrun
  cases hrows : traverseBlockRows tf ctx bs path spath 0 rs pops with
  | error e => rw [hrows] at hrun; exact absurd hrun (by simp [excBind_err])
  | ok pr =>
    obtain ⟨rsB, popsB⟩ := pr
    rw [hrows] at hrun
    simp only [excBind_ok, jsSet_obj, excPure] at hrun
    cases hrun
    obtain ⟨hlen, hpt⟩ := traverseBlockRows_ok tf ctx bs path spath rs 0 pops rsB _ hrows
    refine ⟨rsB, rfl, hlen, ?_⟩
    intro j hj hj2
    obtain ⟨ha, hb⟩ := hpt j hj hj2
    refine ⟨ha, ?_⟩
    intro slug bfs hsome
    obtain ⟨pIn, r, pOut, h1, h2⟩ := hb slug bfs hsome
    exact ⟨pIn, r, pOut, by simpa using h1, h2⟩

/-- A blocks field with one configured block "known" (witness for
C6). -/
def fieldBlocks : FieldDef :=
  .mk (some "b") false false [] none none (.blocks [("known", [])])

theorem c6_blocks_unmatched_witness :
    ∃ rs2, (JValue.obj [("b",
        JValue.arr [JValue.obj [("blockType", JValue.str "mystery"), ("x", JValue.num 1)]])]) =
        .obj (setEntry [("b",
          JValue.arr [JValue.obj [("blockType", JValue.str "mystery"), ("x", JValue.num 1)]])]
          "b" (.arr rs2)) ∧
      rs2.length = 1 ∧
      ∀ j (hj : j < ([JValue.obj [("blockType", JValue.str "mystery"), ("x", JValue.num 1)]] :
          List JValue).length) (hj2 : j < rs2.length),
        (findBlock [("known", [])]
            ((([JValue.obj [("blockType", JValue.str "mystery"), ("x", JValue.num 1)]] :
              List JValue).get ⟨j, hj⟩).optChainGet "blockType") = none →
          rs2.get ⟨j, hj2⟩ =
            ([JValue.obj [("blockType", JValue.str "mystery"), ("x", JValue.num 1)]] :
              List JValue).get ⟨j, hj⟩) ∧
        (∀ slug bfs, findBlock [("known", [])]
            ((([JValue.obj [("blockType", JValue.str "mystery"), ("x", JValue.num 1)]] :
              List JValue).get ⟨j, hj⟩).optChainGet "blockType") = some (slug, bfs) →
          ∃ pIn r pOut,
            tfId ctxW bfs ([Seg.key "b"] ++ [Seg.idx j]) ["b"]
              (if truthy (([JValue.obj [("blockType", JValue.str "mystery"),
                  ("x", JValue.num 1)]] : List JValue).get ⟨j, hj⟩) then
                ([JValue.obj [("blockType", JValue.str "mystery"), ("x", JValue.num 1)]] :
                  List JValue).get ⟨j, hj⟩
              else JValue.obj []) pIn = .ok (r, pOut) ∧
            rs2.get ⟨j, hj2⟩ =
              (if truthy (([JValue.obj [("blockType", JValue.str "mystery"),
                  ("x", JValue.num 1)]] : List JValue).get ⟨j, hj⟩) then r
              else ([JValue.obj [("blockType", JValue.str "mystery"), ("x", JValue.num 1)]] :
                List JValue).get ⟨j, hj⟩)) := by
  exact c6_blocks_unmatched tfId ctxW fieldBlocks [("known", [])] "b" false
    [Seg.key "b"] ["b"]
    [("b", JValue.arr [JValue.obj [("blockType", JValue.str "mystery"), ("x", JValue.num 1)]])]
    [] [JValue.obj [("blockType", JValue.str "mystery"), ("x", JValue.num 1)]] _ _
    rfl rfl rfl rfl

/-! ### C7: richText editor validation -/

theorem jsGet_error (v : JValue) (k : String) (e : JsError)
    (h : v.jsGet k = .error e) : e = .typeError := by
  cases v <;> simp_all [JValue.jsGet]

theorem jsSet_error (v : JValue) (k : String) (x : JValue) (e : JsError)
    (h : v.jsSet k x = .error e) : e = .typeError := by
  cases v <;> simp_all [JValue.jsSet]

theorem jsEntries_error (v : JValue) (e : JsError)
    (h : jsEntries v = .error e) : e = .typeError := by
  cases v <;> simp_all [jsEntries]

theorem removeHiddenField_obj_ok (ctx : Ctx) (field : FieldDef)
    (kvs : List (String × JValue)) :
    ∃ kvs2, removeHiddenField ctx field (.obj kvs) = .ok (.obj kvs2) := by
  cases hname : field.name with
  | none => exact ⟨kvs, by simp [removeHiddenField, hname, excPure]⟩
  | some n =>
    cases hh : field.hidden with
    | false => exact ⟨kvs, by simp [removeHiddenField, hname, hh, excPure]⟩
    | true =>
      cases hu : ((lookupEntry kvs n).getD .undef).isUndef with
      | true =>
        exact ⟨kvs, by simp [removeHiddenField, hname, hh, jsGet_obj, excBind_ok, hu,
          excPure]⟩
      | false =>
        cases hs : ctx.showHiddenFields with
        | false =>
          exact ⟨delEntry kvs n, by simp [removeHiddenField, hname, hh, jsGet_obj,
            excBind_ok, hu, hs, jsDelete_obj]⟩
        | true =>
          exact ⟨kvs, by simp [removeHiddenField, hname, hh, jsGet_obj, excBind_ok, hu,
            hs, excPure]⟩

theorem shouldHoist_obj_ok (ctx : Ctx) (field : FieldDef) (kvs : List (String × JValue)) :
    ∃ b, shouldHoistLocalizedValue ctx field (.obj kvs) = .ok b := by
  cases hfl : ctx.flattenLocales with
  | false => exact ⟨false, by simp [shouldHoistLocalizedValue, hfl, excPure]⟩
  | true =>
    cases hname : field.name with
    | none => exact ⟨false, by simp [shouldHoistLocalizedValue, hfl, hname, excPure]⟩
    | some n =>
      refine ⟨(isNonNullJsObject ((lookupEntry kvs n).getD .undef) && field.localized &&
        !(ctx.locale == some "all") && ctx.localization), ?_⟩
      simp [shouldHoistLocalizedValue, hfl, hname, jsGet_obj, excBind_ok, excPure]

theorem shouldHoist_obj_true_nonNull (ctx : Ctx) (field : FieldDef)
    (kvs : List (String × JValue)) (n : String) (hname : field.name = some n)
    (hb : shouldHoistLocalizedValue ctx field (.obj kvs) = .ok true) :
    isNonNullJsObject ((lookupEntry kvs n).getD .undef) = true := by
  cases hfl : ctx.flattenLocales with
  | false => simp [shouldHoistLocalizedValue, hfl, excPure] at hb
  | true =>
    simp only [shouldHoistLocalizedValue, hfl, if_true, hname, jsGet_obj, excBind_ok,
      excPure] at hb
    injection hb with hb2
    simp only [Bool.and_eq_true] at hb2
    exact hb2.1.1.1

theorem hoistStage_obj_ok (ctx : Ctx) (field : FieldDef) (kvs : List (String × JValue))
    (b : Bool) (hb : shouldHoistLocalizedValue ctx field (.obj kvs) = .ok b) :
    ∃ kvs2, hoistStage ctx field b (.obj kvs) = .ok (.obj kvs2) := by
  cases b with
  | false => exact ⟨kvs, by simp [hoistStage, excPure]⟩
  | true =>
    have hnm : ∃ n, field.name = some n := by
      cases hname : field.name with
      | none =>
        exfalso
        cases hfl : ctx.flattenLocales <;>
          simp [shouldHoistLocalizedValue, hfl, hname, excPure] at hb
      | some n => exact ⟨n, rfl⟩
    obtain ⟨n, hname⟩ := hnm
    have hobj := shouldHoist_obj_true_nonNull ctx field kvs n hname hb
    simp only [hoistStage, if_true, FieldDef.nameKey, hname, Option.getD_some, jsGet_obj,
      excBind_ok]
    rw [jsGet_of_nonNullObject _ _ hobj]
    simp only [excBind_ok]
    cases hfb : ctx.fallbackLocale with
    | none =>
      simp only [excPure, excBind_ok, jsSet_obj]
      exact ⟨_, rfl⟩
    | some fb =>
      cases hne : (fb != "" && !(some fb == ctx.locale)) with
      | false =>
        simp only [hne, Bool.false_eq_true, if_false, excPure, excBind_ok, jsSet_obj]
        exact ⟨_, rfl⟩
      | true =>
        simp only [hne, if_true]
        rw [jsGet_of_nonNullObject _ _ hobj]
        simp only [excBind_ok]
        cases htr : truthy (((lookupEntry kvs n).getD .undef).optChainGet fb) with
        | false =>
          simp only [htr, Bool.false_eq_true, if_false, excPure, excBind_ok, jsSet_obj]
          exact ⟨_, rfl⟩
        | true =>
          cases field.ty <;>
            (simp only [htr]
             exact ⟨_, rfl⟩)

theorem runHookAllLocales_shape (h : JValue → JValue) (nm : String) :
    ∀ (entries : List (String × JValue)) (kvs : List (String × JValue)),
      (∃ kvs2, runHookAllLocales h nm entries (.obj kvs) = .ok (.obj kvs2)) ∨
      runHookAllLocales h nm entries (.obj kvs) = .error .typeError := by
  intro entries
  induction entries with
  | nil => intro kvs; exact Or.inl ⟨kvs, rfl⟩
  | cons e rest ih =>
    obtain ⟨k, v⟩ := e
    intro kvs
    cases hu : (h v).isUndef with
    | true => simpa [runHookAllLocales, hu, excPure, excBind_ok] using ih kvs
    | false =>
      cases hcs : ((lookupEntry kvs nm).getD .undef).jsSet k (h v) with
      | error e2 =>
        right
        have he := jsSet_error _ _ _ _ hcs
        subst he
        simp [runHookAllLocales, hu, jsGet_obj, excBind_ok, hcs, excBind_err]
      | ok c2 =>
        simpa [runHookAllLocales, hu, jsGet_obj, excBind_ok, hcs, jsSet_obj, excPure]
          using ih (setEntry kvs nm c2)

theorem runHookChain_shape (ctx : Ctx) (field : FieldDef) (nm : String) :
    ∀ (hooks : List (JValue → JValue)) (kvs : List (String × JValue)),
      (∃ kvs2, runHookChain ctx field nm hooks (.obj kvs) = .ok (.obj kvs2)) ∨
      runHookChain ctx field nm hooks (.obj kvs) = .error .typeError := by
  intro hooks
  induction hooks with
  | nil => intro kvs; exact Or.inl ⟨kvs, rfl⟩
  | cons h rest ih =>
    intro kvs
    simp only [runHookChain, jsGet_obj, excBind_ok]
    cases hsa : (field.localized && (ctx.locale == some "all" || !ctx.flattenLocales) &&
        isJsObjectType ((lookupEntry kvs nm).getD .undef)) with
    | false =>
      rw [if_neg (by simp)]
      cases hu : (h ((lookupEntry kvs nm).getD .undef)).isUndef with
      | true =>
        rw [if_pos rfl]
        simpa [excPure, excBind_ok] using ih kvs
      | false =>
        rw [if_neg (by simp), jsSet_obj]
        simpa [excBind_ok] using ih (setEntry kvs nm (h ((lookupEntry kvs nm).getD .undef)))
    | true =>
      rw [if_pos rfl]
      cases hje : jsEntries ((lookupEntry kvs nm).getD .undef) with
      | error e2 =>
        have he := jsEntries_error _ _ hje
        subst he
        right
        simp [excBind_err]
      | ok entries =>
        simp only [excBind_ok]
        rcases runHookAllLocales_shape h nm entries kvs with ⟨kvsM, hM⟩ | hM
        · rw [hM]
          simpa [excBind_ok] using ih kvsM
        · rw [hM]
          right
          simp [excBind_err]

theorem accessStage_obj_ok (ctx : Ctx) (field : FieldDef) (nm : String)
    (kvs : List (String × JValue)) :
    ∃ kvs2 ad, accessStage ctx field nm (.obj kvs) = .ok (.obj kvs2, ad) := by
  cases hacc : field.access with
  | none => exact ⟨kvs, true, by simp [accessStage, hacc, excPure]⟩
  | some pred =>
    cases htr : ctx.triggerAccessControl with
    | false => exact ⟨kvs, true, by simp [accessStage, hacc, htr, excPure]⟩
    | true =>
      cases hov : ctx.overrideAccess with
      | true => exact ⟨kvs, true, by simp [accessStage, hacc, htr, hov, excPure]⟩
      | false =>
        cases hp : pred ctx.doc (.obj kvs) with
        | true => exact ⟨kvs, true, by simp [accessStage, hacc, htr, hov, hp, excPure]⟩
        | false =>
          exact ⟨delEntry kvs nm, false,
            by simp [accessStage, hacc, htr, hov, hp, jsDelete_obj, excBind_ok, excPure]⟩

theorem defaultStage_obj_ok (ctx : Ctx) (field : FieldDef) (nm : String)
    (kvs : List (String × JValue)) (ad : Bool) :
    ∃ kvs2, defaultStage ctx field nm (.obj kvs) ad = .ok (.obj kvs2) := by
  cases hdv : field.defaultValue with
  | none => exact ⟨kvs, by simp [defaultStage, hdv, jsGet_obj, excBind_ok, excPure]⟩
  | some dv =>
    simp only [defaultStage, hdv, jsGet_obj, excBind_ok]
    cases hc : (ad && ((lookupEntry kvs nm).getD .undef).isUndef) with
    | true =>
      rw [if_pos rfl, jsSet_obj]
      exact ⟨_, rfl⟩
    | false =>
      rw [if_neg (by simp)]
      exact ⟨kvs, rfl⟩

theorem traverseStage_richtext_shape (tf : TraverseFun) (ctx : Ctx) (field : FieldDef)
    (edHooks : List (JValue → JValue)) (b : Bool) (fp : List Seg) (fsp : List String)
    (kvs : List (String × JValue)) (pops : List PopTask)
    (hty : field.ty = .richText (.resolved edHooks)) :
    (∃ r, traverseStage tf ctx field b fp fsp (.obj kvs) pops = .ok r) ∨
    traverseStage tf ctx field b fp fsp (.obj kvs) pops = .error .typeError := by
  simp only [traverseStage, hty]
  cases hl : (edHooks.length != 0) with
  | false =>
    rw [if_neg (by simp [hl])]
    exact Or.inl ⟨_, rfl⟩
  | true =>
    rw [if_pos (by simp [hl])]
    rcases runHookChain_shape ctx field field.nameKey edHooks kvs with ⟨kvs2, h2⟩ | h2
    · rw [h2]
      exact Or.inl ⟨_, rfl⟩
    · rw [h2]
      right
      simp [excBind_err]

/-- C7.  For a `richText` field (on an object sibling, whatever data
the slot holds): a missing editor adapter makes the promise throw
`MissingEditorProp`, an unresolved factory adapter makes it throw the
unsanitized-editor error — in both cases the whole read aborts with
that error regardless of the stored data — and with a resolved adapter
the promise never produces either configuration error and the
sanitize stage leaves the sibling untouched (no content
transformation). -/
theorem c7_richtext_editor (tf : TraverseFun) (ctx : Ctx) (field : FieldDef)
    (ed : EditorConfig) (i : Nat) (pp : List Seg) (sp : List String)
    (kvs : List (String × JValue)) (pops : List PopTask)
    (hty : field.ty = .richText ed) :
    (ed = .missing →
      promiseF tf ctx field i pp sp (.obj kvs) pops = .error .missingEditorProp) ∧
    (ed = .factory →
      promiseF tf ctx field i pp sp (.obj kvs) pops = .error .unsanitizedEditor) ∧
    (∀ edHooks, ed = .resolved edHooks →
      sanitizeStage field (.obj kvs) = .ok (.obj kvs) ∧
      promiseF tf ctx field i pp sp (.obj kvs) pops ≠ .error .missingEditorProp ∧
      promiseF tf ctx field i pp sp (.obj kvs) pops ≠ .error .unsanitizedEditor) := by
  obtain ⟨kvs1, h1⟩ := removeHiddenField_obj_ok ctx field kvs
  obtain ⟨b, h2⟩ := shouldHoist_obj_ok ctx field kvs1
  obtain ⟨kvs2, h3⟩ := hoistStage_obj_ok ctx field kvs1 b h2
  refine ⟨?_, ?_, ?_⟩
  · intro hmiss
    subst hmiss
    simp [promiseF, h1, h2, h3, excBind_ok, excBind_err, sanitizeStage, hty]
  · intro hfac
    subst hfac
    simp [promiseF, h1, h2, h3, excBind_ok, excBind_err, sanitizeStage, hty]
  · intro edHooks hres
    subst hres
    have hsan : sanitizeStage field (.obj kvs) = .ok (.obj kvs) := by
      simp [sanitizeStage, hty, excPure]
    have hsan2 : sanitizeStage field (.obj kvs2) = .ok (.obj kvs2) := by
      simp [sanitizeStage, hty, excPure]
    refine ⟨hsan, ?_⟩
    have hclass : (∃ r, promiseF tf ctx field i pp sp (.obj kvs) pops = .ok r) ∨
        promiseF tf ctx field i pp sp (.obj kvs) pops = .error .typeError := by
      simp only [promiseF, h1, h2, h3, hsan2, excBind_ok]
      cases hname : field.name with
      | none =>
        dsimp only
        simp only [excPure, excBind_ok]
        exact traverseStage_richtext_shape tf ctx field edHooks b _ _ kvs2 pops hty
      | some n =>
        dsimp only
        cases htrh : ctx.triggerHooks with
        | false =>
          rw [if_neg (by simp)]
          simp only [excPure, excBind_ok]
          obtain ⟨kvs3, ad, ha⟩ := accessStage_obj_ok ctx field n kvs2
          rw [ha]
          simp only [excBind_ok]
          obtain ⟨kvs4, hd⟩ := defaultStage_obj_ok ctx field n kvs3 ad
          rw [hd]
          simp only [excBind_ok, excPure]
          exact traverseStage_richtext_shape tf ctx field edHooks b _ _ kvs4 _ hty
        | true =>
          rw [if_pos rfl]
          rcases runHookChain_shape ctx field n field.hooks kvs2 with ⟨kvs3, hh⟩ | hh
          · rw [hh]
            simp only [excBind_ok]
            obtain ⟨kvs4, ad, ha⟩ := accessStage_obj_ok ctx field n kvs3
            rw [ha]
            simp only [excBind_ok]
            obtain ⟨kvs5, hd⟩ := defaultStage_obj_ok ctx field n kvs4 ad
            rw [hd]
            simp only [excBind_ok, excPure]
            exact traverseStage_richtext_shape tf ctx field edHooks b _ _ kvs5 _ hty
          · rw [hh]
            right
            simp [excBind_err]
    rcases hclass with ⟨r, hr⟩ | hr <;> rw [hr] <;> exact ⟨by simp, by simp⟩

/-- A richText field with a missing editor (witness for C7). -/
def fieldRichMissing : FieldDef :=
  .mk (some "rt") false false [] none none (.richText .missing)

/-- A richText field with a resolved editor and no editor hooks
(witness for C7). -/
def fieldRichResolved : FieldDef :=
  .mk (some "rt") false false [] none none (.richText (.resolved []))

theorem c7_richtext_editor_witness :
    promiseF tfId ctxW fieldRichMissing 0 [] []
        (.obj [("rt", .str "content")]) [] = .error .missingEditorProp ∧
    promiseF tfId ctxW fieldRichResolved 0 [] []
        (.obj [("rt", .str "content")]) [] ≠ .error .missingEditorProp := by
  constructor
  · exact (c7_richtext_editor tfId ctxW fieldRichMissing .missing 0 [] []
      [("rt", .str "content")] [] rfl).1 rfl
  · exact ((c7_richtext_editor tfId ctxW fieldRichResolved (.resolved []) 0 [] []
      [("rt", .str "content")] [] rfl).2.2 [] rfl).2.1

/-! ### C8: population task enqueueing -/

/-- A traversal function that never alters the population queue it is
handed (it may only hand it back unchanged). -/
def PreservesPops (tf : TraverseFun) : Prop :=
  ∀ c fs p s sib pq r, tf c fs p s sib pq = .ok r → r.2 = pq

theorem traverseRows_preserves (tf : TraverseFun) (hp : PreservesPops tf) (ctx : Ctx)
    (fs : List FieldDef) (path : List Seg) (spath : List String) :
    ∀ (rows : List JValue) (i : Nat) (pops : List PopTask) rows2 pops2,
      traverseRows tf ctx fs path spath i rows pops = .ok (rows2, pops2) → pops2 = pops := by
  intro rows
  induction rows with
  | nil =>
    intro i pops rows2 pops2 heq
    simp only [traverseRows, excPure] at heq
    cases heq
    rfl
  | cons row rest ih =>
    intro i pops rows2 pops2 heq
    simp only [traverseRows] at heq
    cases htf : tf ctx fs (path ++ [Seg.idx i]) spath
        (if truthy row then row else JValue.obj []) pops with
    | error e => rw [htf] at heq; exact absurd heq (by simp [excBind_err])
    | ok pr =>
      obtain ⟨rowB, popsB⟩ := pr
      have hB : popsB = pops := hp _ _ _ _ _ _ _ htf
      rw [htf] at heq
      simp only [excBind_ok] at heq
      cases hrec : traverseRows tf ctx fs path spath (i + 1) rest popsB with
      | error e => rw [hrec] at heq; exact absurd heq (by simp [excBind_err])
      | ok pr2 =>
        obtain ⟨restB, popsC⟩ := pr2
        have hC : popsC = popsB := ih (i + 1) popsB restB popsC hrec
        rw [hrec] at heq
        simp only [excBind_ok, excPure] at heq
        cases heq
        exact hC.trans hB

theorem traverseLocaleRows_preserves (tf : TraverseFun) (hp : PreservesPops tf) (ctx : Ctx)
    (fs : List FieldDef) (path : List Seg) (spath : List String) :
    ∀ (entries : List (String × JValue)) (pops : List PopTask) entries2 pops2,
      traverseLocaleRows tf ctx fs path spath entries pops = .ok (entries2, pops2) →
      pops2 = pops := by
  intro entries
  induction entries with
  | nil =>
    intro pops entries2 pops2 heq
    simp only [traverseLocaleRows, excPure] at heq
    cases heq
    rfl
  | cons e rest ih =>
    obtain ⟨k, lv⟩ := e
    intro pops entries2 pops2 heq
    cases hlv : lv.isArr with
    | true =>
      obtain ⟨rs, rfl⟩ : ∃ rs, lv = JValue.arr rs := by
        cases lv <;> first
        | exact ⟨_, rfl⟩
        | simp_all [JValue.isArr]
      simp only [traverseLocaleRows] at heq
      cases hrows : traverseRows tf ctx fs path spath 0 rs pops with
      | error er => rw [hrows] at heq; exact absurd heq (by simp [excBind_err])
      | ok pr =>
        obtain ⟨rsB, popsB⟩ := pr
        have hB : popsB = pops := traverseRows_preserves tf hp ctx fs path spath rs 0 pops rsB popsB hrows
        rw [hrows] at heq
        simp only [excBind_ok] at heq
        cases hrec : traverseLocaleRows tf ctx fs path spath rest popsB with
        | error er => rw [hrec] at heq; exact absurd heq (by simp [excBind_err])
        | ok pr2 =>
          obtain ⟨restB, popsC⟩ := pr2
          have hC : popsC = popsB := ih popsB restB popsC hrec
          rw [hrec] at heq
          simp only [excBind_ok, excPure] at heq
          cases heq
          exact hC.trans hB
    | false =>
      rw [traverseLocaleRows_cons_notArr tf ctx fs path spath k lv rest pops hlv] at heq
      cases hrec : traverseLocaleRows tf ctx fs path spath rest pops with
      | error er => rw [hrec] at heq; exact absurd heq (by simp [excBind_err])
      | ok pr2 =>
        obtain ⟨restB, popsB⟩ := pr2
        have hB : popsB = pops := ih pops restB popsB hrec
        rw [hrec] at heq
        simp only [excBind_ok, excPure] at heq
        cases heq
        exact hB

theorem traverseBlockRows_preserves (tf : TraverseFun) (hp : PreservesPops tf) (ctx : Ctx)
    (blocks : List (String × List FieldDef)) (path : List Seg) (spath : List String) :
    ∀ (rows : List JValue) (i : Nat) (pops : List PopTask) rows2 pops2,
      traverseBlockRows tf ctx blocks path spath i rows pops = .ok (rows2, pops2) →
      pops2 = pops := by
  intro rows
  induction rows with
  | nil =>
    intro i pops rows2 pops2 heq
    simp only [traverseBlockRows, excPure] at heq
    cases heq
    rfl
  | cons row rest ih =>
    intro i pops rows2 pops2 heq
    simp only [traverseBlockRows] at heq
    cases hbt : row.jsGet "blockType" with
    | error e => rw [hbt] at heq; exact absurd heq (by simp [excBind_err])
    | ok bt =>
      rw [hbt] at heq
      simp only [excBind_ok] at heq
      cases hfb : findBlock blocks bt with
      | some b =>
        rw [hfb] at heq
        simp only at heq
        cases htf : tf ctx b.2 (path ++ [Seg.idx i]) spath
            (if truthy row then row else JValue.obj []) pops with
        | error e => rw [htf] at heq; exact absurd heq (by simp [excBind_err])
        | ok pr =>
          obtain ⟨rowB, popsB⟩ := pr
          have hB : popsB = pops := hp _ _ _ _ _ _ _ htf
          rw [htf] at heq
          simp only [excBind_ok] at heq
          cases hrec : traverseBlockRows tf ctx blocks path spath (i + 1) rest popsB with
          | error e => rw [hrec] at heq; exact absurd heq (by simp [excBind_err])
          | ok pr2 =>
            obtain ⟨restB, popsC⟩ := pr2
            have hC : popsC = popsB := ih (i + 1) popsB restB popsC hrec
            rw [hrec] at heq
            simp only [excBind_ok, excPure] at heq
            cases heq
            exact hC.trans hB
      | none =>
        rw [hfb] at heq
        simp only at heq
        cases hrec : traverseBlockRows tf ctx blocks path spath (i + 1) rest pops with
        | error e => rw [hrec] at heq; exact absurd heq (by simp [excBind_err])
        | ok pr2 =>
          obtain ⟨restB, popsB⟩ := pr2
          have hB : popsB = pops := ih (i + 1) pops restB popsB hrec
          rw [hrec] at heq
          simp only [excBind_ok, excPure] at heq
          cases heq
          exact hB

theorem traverseBlockLocaleRows_cons_notArr (tf : TraverseFun) (ctx : Ctx)
    (blocks : List (String × List FieldDef)) (path : List Seg) (spath : List String)
    (k : String) (lv : JValue) (rest : List (String × JValue)) (pops : List PopTask)
    (hno : lv.isArr = false) :
    traverseBlockLocaleRows tf ctx blocks path spath ((k, lv) :: rest) pops =
      (do
        let d ← traverseBlockLocaleRows tf ctx blocks path spath rest pops
        pure ((k, lv) :: d.1, d.2)) := by
  cases lv <;> simp_all [traverseBlockLocaleRows, JValue.isArr]

theorem traverseBlockLocaleRows_preserves (tf : TraverseFun) (hp : PreservesPops tf)
    (ctx : Ctx) (blocks : List (String × List FieldDef)) (path : List Seg)
    (spath : List String) :
    ∀ (entries : List (String × JValue)) (pops : List PopTask) entries2 pops2,
      traverseBlockLocaleRows tf ctx blocks path spath entries pops = .ok (entries2, pops2) →
      pops2 = pops := by
  intro entries
  induction entries with
  | nil =>
    intro pops entries2 pops2 heq
    simp only [traverseBlockLocaleRows, excPure] at heq
    cases heq
    rfl
  | cons e rest ih =>
    obtain ⟨k, lv⟩ := e
    intro pops entries2 pops2 heq
    cases hlv : lv.isArr with
    | true =>
      obtain ⟨rs, rfl⟩ : ∃ rs, lv = JValue.arr rs := by
        cases lv <;> first
        | exact ⟨_, rfl⟩
        | simp_all [JValue.isArr]
      simp only [traverseBlockLocaleRows] at heq
      cases hrows : traverseBlockRows tf ctx blocks path spath 0 rs pops with
      | error er => rw [hrows] at heq; exact absurd heq (by simp [excBind_err])
      | ok pr =>
        obtain ⟨rsB, popsB⟩ := pr
        have hB : popsB = pops :=
          traverseBlockRows_preserves tf hp ctx blocks path spath rs 0 pops rsB popsB hrows
        rw [hrows] at heq
        simp only [excBind_ok] at heq
        cases hrec : traverseBlockLocaleRows tf ctx blocks path spath rest popsB with
        | error er => rw [hrec] at heq; exact absurd heq (by simp [excBind_err])
        | ok pr2 =>
          obtain ⟨restB, popsC⟩ := pr2
          have hC : popsC = popsB := ih popsB restB popsC hrec
          rw [hrec] at heq
          simp only [excBind_ok, excPure] at heq
          cases heq
          exact hC.trans hB
    | false =>
      rw [traverseBlockLocaleRows_cons_notArr tf ctx blocks path spath k lv rest pops hlv]
        at heq
      cases hrec : traverseBlockLocaleRows tf ctx blocks path spath rest pops with
      | error er => rw [hrec] at heq; exact absurd heq (by simp [excBind_err])
      | ok pr2 =>
        obtain ⟨restB, popsB⟩ := pr2
        have hB : popsB = pops := ih pops restB popsB hrec
        rw [hrec] at heq
        simp only [excBind_ok, excPure] at heq
        cases heq
        exact hB

theorem traverseStage_preserves (tf : TraverseFun) (hp : PreservesPops tf) (ctx : Ctx)
    (field : FieldDef) (b : Bool) (fp : List Seg) (fsp : List String)
    (sibling : JValue) (pops : List PopTask) (sib2 : JValue) (pops2 : List PopTask)
    (hrun : traverseStage tf ctx field b fp fsp sibling pops = .ok (sib2, pops2)) :
    pops2 = pops := by
  cases hty : field.ty with
  | text =>
    simp only [traverseStage, hty, excPure] at hrun
    cases hrun
    rfl
  | textarea =>
    simp only [traverseStage, hty, excPure] at hrun
    cases hrun
    rfl
  | point =>
    simp only [traverseStage, hty, excPure] at hrun
    cases hrun
    rfl
  | relationship =>
    simp only [traverseStage, hty, excPure] at hrun
    cases hrun
    rfl
  | upload =>
    simp only [traverseStage, hty, excPure] at hrun
    cases hrun
    rfl
  | join =>
    simp only [traverseStage, hty, excPure] at hrun
    cases hrun
    rfl
  | other s =>
    simp only [traverseStage, hty, excPure] at hrun
    cases hrun
    rfl
  | richText ed =>
    simp only [traverseStage, hty] at hrun
    cases ed with
    | missing => exact absurd hrun (by simp)
    | factory => exact absurd hrun (by simp)
    | resolved edHooks =>
      simp only at hrun
      cases hl : (edHooks.length != 0) with
      | false =>
        rw [if_neg (by simp [hl])] at hrun
        simp only [excPure] at hrun
        cases hrun
        rfl
      | true =>
        rw [if_pos (by simp [hl])] at hrun
        cases hh : runHookChain ctx field field.nameKey edHooks sibling with
        | error e => rw [hh] at hrun; exact absurd hrun (by simp [excBind_err])
        | ok s3 =>
          rw [hh] at hrun
          simp only [excBind_ok, excPure] at hrun
          cases hrun
          rfl
  | group fs =>
    simp only [traverseStage, hty] at hrun
    cases hg : sibling.jsGet field.nameKey with
    | error e => rw [hg] at hrun; exact absurd hrun (by simp [excBind_err])
    | ok v =>
      rw [hg] at hrun
      simp only [excBind_ok] at hrun
      cases hv : isJsObjectType v with
      | true =>
        rw [if_pos (by simp [hv])] at hrun
        cases htf : tf ctx fs fp fsp v pops with
        | error e => rw [htf] at hrun; exact absurd hrun (by simp [excBind_err])
        | ok pr =>
          obtain ⟨g2, popsB⟩ := pr
          have hB : popsB = pops := hp _ _ _ _ _ _ _ htf
          rw [htf] at hrun
          simp only [excBind_ok] at hrun
          cases hs : sibling.jsSet field.nameKey g2 with
          | error e => rw [hs] at hrun; exact absurd hrun (by simp [excBind_err])
          | ok s3 =>
            rw [hs] at hrun
            simp only [excBind_ok, excPure] at hrun
            cases hrun
            exact hB
      | false =>
        rw [if_neg (by simp [hv])] at hrun
        cases htf : tf ctx fs fp fsp (JValue.obj []) pops with
        | error e => rw [htf] at hrun; exact absurd hrun (by simp [excBind_err])
        | ok pr =>
          obtain ⟨g2, popsB⟩ := pr
          have hB : popsB = pops := hp _ _ _ _ _ _ _ htf
          rw [htf] at hrun
          simp only [excBind_ok, excPure] at hrun
          cases hrun
          exact hB
  | array fs =>
    simp only [traverseStage, hty] at hrun
    cases hg : sibling.jsGet field.nameKey with
    | error e => rw [hg] at hrun; exact absurd hrun (by simp [excBind_err])
    | ok v =>
      rw [hg] at hrun
      simp only [excBind_ok] at hrun
      cases v with
      | arr rs =>
        simp only at hrun
        cases hrows : traverseRows tf ctx fs fp fsp 0 rs pops with
        | error e => rw [hrows] at hrun; exact absurd hrun (by simp [excBind_err])
        | ok pr =>
          obtain ⟨rsB, popsB⟩ := pr
          have hB : popsB = pops :=
            traverseRows_preserves tf hp ctx fs fp fsp rs 0 pops rsB popsB hrows
          rw [hrows] at hrun
          simp only [excBind_ok] at hrun
          cases hs : sibling.jsSet field.nameKey (JValue.arr rsB) with
          | error e => rw [hs] at hrun; exact absurd hrun (by simp [excBind_err])
          | ok s3 =>
            rw [hs] at hrun
            simp only [excBind_ok, excPure] at hrun
            cases hrun
            exact hB
      | obj les =>
        simp only at hrun
        cases hb2 : (!b && isNonNullJsObject (JValue.obj les)) with
        | false =>
          rw [if_neg (by simp [hb2])] at hrun
          cases hs : sibling.jsSet field.nameKey (JValue.arr []) with
          | error e => rw [hs] at hrun; exact absurd hrun (by simp [excBind_err])
          | ok s3 =>
            rw [hs] at hrun
            simp only [excBind_ok, excPure] at hrun
            cases hrun
            rfl
        | true =>
          rw [if_pos (by simp [hb2])] at hrun
          simp only [jsEntries_obj, excBind_ok] at hrun
          cases hloc : traverseLocaleRows tf ctx fs fp fsp les pops with
          | error e => rw [hloc] at hrun; exact absurd hrun (by simp [excBind_err])
          | ok pr =>
            obtain ⟨lesB, popsB⟩ := pr
            have hB : popsB = pops :=
              traverseLocaleRows_preserves tf hp ctx fs fp fsp les pops lesB popsB hloc
            rw [hloc] at hrun
            simp only [excBind_ok] at hrun
            cases hs : sibling.jsSet field.nameKey (JValue.obj lesB) with
            | error e => rw [hs] at hrun; exact absurd hrun (by simp [excBind_err])
            | ok s3 =>
              rw [hs] at hrun
              simp only [excBind_ok, excPure] at hrun
              cases hrun
              exact hB
      | undef =>
        simp only at hrun
        rw [if_neg (by simp [isNonNullJsObject])] at hrun
        cases hs : sibling.jsSet field.nameKey (JValue.arr []) with
        | error e => rw [hs] at hrun; exact absurd hrun (by simp [excBind_err])
        | ok s3 =>
          rw [hs] at hrun
          simp only [excBind_ok, excPure] at hrun
          cases hrun
          rfl
      | null =>
        simp only at hrun
        rw [if_neg (by simp [isNonNullJsObject])] at hrun
        cases hs : sibling.jsSet field.nameKey (JValue.arr []) with
        | error e => rw [hs] at hrun; exact absurd hrun (by simp [excBind_err])
        | ok s3 =>
          rw [hs] at hrun
          simp only [excBind_ok, excPure] at hrun
          cases hrun
          rfl
      | bool bb =>
        simp only at hrun
        rw [if_neg (by simp [isNonNullJsObject])] at hrun
        cases hs : sibling.jsSet field.nameKey (JValue.arr []) with
        | error e => rw [hs] at hrun; exact absurd hrun (by simp [excBind_err])
        | ok s3 =>
          rw [hs] at hrun
          simp only [excBind_ok, excPure] at hrun
          cases hrun
          rfl
      | num m =>
        simp only at hrun
        rw [if_neg (by simp [isNonNullJsObject])] at hrun
        cases hs : sibling.jsSet field.nameKey (JValue.arr []) with
        | error e => rw [hs] at hrun; exact absurd hrun (by simp [excBind_err])
        | ok s3 =>
          rw [hs] at hrun
          simp only [excBind_ok, excPure] at hrun
          cases hrun
          rfl
      | str ss =>
        simp only at hrun
        rw [if_neg (by simp [isNonNullJsObject])] at hrun
        cases hs : sibling.jsSet field.nameKey (JValue.arr []) with
        | error e => rw [hs] at hrun; exact absurd hrun (by simp [excBind_err])
        | ok s3 =>
          rw [hs] at hrun
          simp only [excBind_ok, excPure] at hrun
          cases hrun
          rfl
  | blocks bs =>
    simp only [traverseStage, hty] at hrun
    cases hg : sibling.jsGet field.nameKey with
    | error e => rw [hg] at hrun; exact absurd hrun (by simp [excBind_err])
    | ok v =>
      rw [hg] at hrun
      simp only [excBind_ok] at hrun
      cases v with
      | arr rs =>
        simp only at hrun
        cases hrows : traverseBlockRows tf ctx bs fp fsp 0 rs pops with
        | error e => rw [hrows] at hrun; exact absurd hrun (by simp [excBind_err])
        | ok pr =>
          obtain ⟨rsB, popsB⟩ := pr
          have hB : popsB = pops :=
            traverseBlockRows_preserves tf hp ctx bs fp fsp rs 0 pops rsB popsB hrows
          rw [hrows] at hrun
          simp only [excBind_ok] at hrun
          cases hs : sibling.jsSet field.nameKey (JValue.arr rsB) with
          | error e => rw [hs] at hrun; exact absurd hrun (by simp [excBind_err])
          | ok s3 =>
            rw [hs] at hrun
            simp only [excBind_ok, excPure] at hrun
            cases hrun
            exact hB
      | obj les =>
        simp only at hrun
        cases hb2 : (!b && isNonNullJsObject (JValue.obj les)) with
        | false =>
          rw [if_neg (by simp [hb2])] at hrun
          cases hs : sibling.jsSet field.nameKey (JValue.arr []) with
          | error e => rw [hs] at hrun; exact absurd hrun (by simp [excBind_err])
          | ok s3 =>
            rw [hs] at hrun
            simp only [excBind_ok, excPure] at hrun
            cases hrun
            rfl
        | true =>
          rw [if_pos (by simp [hb2])] at hrun
          simp only [jsEntries_obj, excBind_ok] at hrun
          cases hloc : traverseBlockLocaleRows tf ctx bs fp fsp les pops with
          | error e => rw [hloc] at hrun; exact absurd hrun (by simp [excBind_err])
          | ok pr =>
            obtain ⟨lesB, popsB⟩ := pr
            have hB : popsB = pops :=
              traverseBlockLocaleRows_preserves tf hp ctx bs fp fsp les pops lesB popsB hloc
            rw [hloc] at hrun
            simp only [excBind_ok] at hrun
            cases hs : sibling.jsSet field.nameKey (JValue.obj lesB) with
            | error e => rw [hs] at hrun; exact absurd hrun (by simp [excBind_err])
            | ok s3 =>
              rw [hs] at hrun
              simp only [excBind_ok, excPure] at hrun
              cases hrun
              exact hB
      | undef =>
        simp only at hrun
        rw [if_neg (by simp [isNonNullJsObject])] at hrun
        cases hs : sibling.jsSet field.nameKey (JValue.arr []) with
        | error e => rw [hs] at hrun; exact absurd hrun (by simp [excBind_err])
        | ok s3 =>
          rw [hs] at hrun
          simp only [excBind_ok, excPure] at hrun
          cases hrun
          rfl
      | null =>
        simp only at hrun
        rw [if_neg (by simp [isNonNullJsObject])] at hrun
        cases hs : sibling.jsSet field.nameKey (JValue.arr []) with
        | error e => rw [hs] at hrun; exact absurd hrun (by simp [excBind_err])
        | ok s3 =>
          rw [hs] at hrun
          simp only [excBind_ok, excPure] at hrun
          cases hrun
          rfl
      | bool bb =>
        simp only at hrun
        rw [if_neg (by simp [isNonNullJsObject])] at hrun
        cases hs : sibling.jsSet field.nameKey (JValue.arr []) with
        | error e => rw [hs] at hrun; exact absurd hrun (by simp [excBind_err])
        | ok s3 =>
          rw [hs] at hrun
          simp only [excBind_ok, excPure] at hrun
          cases hrun
          rfl
      | num m =>
        simp only at hrun
        rw [if_neg (by simp [isNonNullJsObject])] at hrun
        cases hs : sibling.jsSet field.nameKey (JValue.arr []) with
        | error e => rw [hs] at hrun; exact absurd hrun (by simp [excBind_err])
        | ok s3 =>
          rw [hs] at hrun
          simp only [excBind_ok, excPure] at hrun
          cases hrun
          rfl
      | str ss =>
        simp only at hrun
        rw [if_neg (by simp [isNonNullJsObject])] at hrun
        cases hs : sibling.jsSet field.nameKey (JValue.arr []) with
        | error e => rw [hs] at hrun; exact absurd hrun (by simp [excBind_err])
        | ok s3 =>
          rw [hs] at hrun
          simp only [excBind_ok, excPure] at hrun
          cases hrun
          rfl
  | row fs =>
    simp only [traverseStage, hty] at hrun
    have := hp _ _ _ _ _ _ _ hrun
    simpa using this
  | collapsible fs =>
    simp only [traverseStage, hty] at hrun
    have := hp _ _ _ _ _ _ _ hrun
    simpa using this
  | tab fs =>
    simp only [traverseStage, hty] at hrun
    cases hname : field.name with
    | none =>
      rw [hname] at hrun
      simp only at hrun
      have := hp _ _ _ _ _ _ _ hrun
      simpa using this
    | some n =>
      rw [hname] at hrun
      simp only at hrun
      cases hg : sibling.jsGet n with
      | error e => rw [hg] at hrun; exact absurd hrun (by simp [excBind_err])
      | ok v =>
        rw [hg] at hrun
        simp only [excBind_ok] at hrun
        cases hv : isJsObjectType v with
        | true =>
          rw [if_pos (by simp [hv])] at hrun
          cases htf : tf ctx fs fp fsp v pops with
          | error e => rw [htf] at hrun; exact absurd hrun (by simp [excBind_err])
          | ok pr =>
            obtain ⟨t2, popsB⟩ := pr
            have hB : popsB = pops := hp _ _ _ _ _ _ _ htf
            rw [htf] at hrun
            simp only [excBind_ok] at hrun
            cases hs : sibling.jsSet n t2 with
            | error e => rw [hs] at hrun; exact absurd hrun (by simp [excBind_err])
            | ok s3 =>
              rw [hs] at hrun
              simp only [excBind_ok, excPure] at hrun
              cases hrun
              exact hB
        | false =>
          rw [if_neg (by simp [hv])] at hrun
          cases htf : tf ctx fs fp fsp (JValue.obj []) pops with
          | error e => rw [htf] at hrun; exact absurd hrun (by simp [excBind_err])
          | ok pr =>
            obtain ⟨t2, popsB⟩ := pr
            have hB : popsB = pops := hp _ _ _ _ _ _ _ htf
            rw [htf] at hrun
            simp only [excBind_ok, excPure] at hrun
            cases hrun
            exact hB
  | tabs tabFields =>
    simp only [traverseStage, hty] at hrun
    have := hp _ _ _ _ _ _ _ hrun
    simpa using this

theorem promiseF_ok_split (tf : TraverseFun) (ctx : Ctx) (field : FieldDef) (i : Nat)
    (pp : List Seg) (sp : List String) (sibling : JValue) (pops : List PopTask)
    (sib2 : JValue) (pops2 : List PopTask) (n : String) (hname : field.name = some n)
    (hrun : promiseF tf ctx field i pp sp sibling pops = .ok (sib2, pops2)) :
    ∃ sMid b, traverseStage tf ctx field b (getFieldPaths field pp sp i).1
        (getFieldPaths field pp sp i).2 sMid (populationStage ctx field sMid pops) =
      .ok (sib2, pops2) := by
  simp only [promiseF] at hrun
  rcases hgp : getFieldPaths field pp sp i with ⟨fp, fsp⟩
  rw [hgp] at hrun
  simp only at hrun
  cases h1 : removeHiddenField ctx field sibling with
  | error e => rw [h1] at hrun; exact absurd hrun (by simp [excBind_err])
  | ok s1 =>
    rw [h1] at hrun
    simp only [excBind_ok] at hrun
    cases h2 : shouldHoistLocalizedValue ctx field s1 with
    | error e => rw [h2] at hrun; exact absurd hrun (by simp [excBind_err])
    | ok b =>
      rw [h2] at hrun
      simp only [excBind_ok] at hrun
      cases h3 : hoistStage ctx field b s1 with
      | error e => rw [h3] at hrun; exact absurd hrun (by simp [excBind_err])
      | ok s2 =>
        rw [h3] at hrun
        simp only [excBind_ok] at hrun
        cases h4 : sanitizeStage field s2 with
        | error e => rw [h4] at hrun; exact absurd hrun (by simp [excBind_err])
        | ok s3 =>
          rw [h4] at hrun
          simp only [excBind_ok] at hrun
          rw [hname] at hrun
          simp only at hrun
          cases htrh : ctx.triggerHooks with
          | false =>
            rw [if_neg (by simp [htrh])] at hrun
            simp only [excPure, excBind_ok] at hrun
            cases h6 : accessStage ctx field n s3 with
            | error e => rw [h6] at hrun; exact absurd hrun (by simp [excBind_err])
            | ok pr =>
              obtain ⟨s4, ad⟩ := pr
              rw [h6] at hrun
              simp only [excBind_ok] at hrun
              cases h7 : defaultStage ctx field n s4 ad with
              | error e => rw [h7] at hrun; exact absurd hrun (by simp [excBind_err])
              | ok s5 =>
                rw [h7] at hrun
                simp only [excBind_ok, excPure] at hrun
                exact ⟨s5, b, by simpa [hgp] using hrun⟩
          | true =>
            rw [if_pos htrh] at hrun
            cases h5 : runHookChain ctx field n field.hooks s3 with
            | error e => rw [h5] at hrun; exact absurd hrun (by simp [excBind_err])
            | ok s4 =>
              rw [h5] at hrun
              simp only [excBind_ok] at hrun
              cases h6 : accessStage ctx field n s4 with
              | error e => rw [h6] at hrun; exact absurd hrun (by simp [excBind_err])
              | ok pr =>
                obtain ⟨s5, ad⟩ := pr
                rw [h6] at hrun
                simp only [excBind_ok] at hrun
                cases h7 : defaultStage ctx field n s5 ad with
                | error e => rw [h7] at hrun; exact absurd hrun (by simp [excBind_err])
                | ok s6 =>
                  rw [h7] at hrun
                  simp only [excBind_ok, excPure] at hrun
                  exact ⟨s6, b, by simpa [hgp] using hrun⟩

/-- C8.  For a data-affecting field, a successful promise run appends
exactly one population task to the caller-owned queue when — and, for
a traversal function that never touches the queue, only when — the
field's type is relationship, upload or join.  The task captures the
current depth, the depth limit, the draft flag, the fallback locale,
the field definition, the locale, the access-override flag, the
request, the show-hidden flag, and the owning sibling container in its
post-hooks/access/default state (which, for these leaf types, is the
promise's final sibling); the task itself is inert data — nothing in
the traversal executes it. -/
theorem c8_population_enqueue (tf : TraverseFun) (ctx : Ctx) (field : FieldDef)
    (n : String) (i : Nat) (pp : List Seg) (sp : List String) (sibling : JValue)
    (pops : List PopTask) (sib2 : JValue) (pops2 : List PopTask)
    (hname : field.name = some n)
    (hrun : promiseF tf ctx field i pp sp sibling pops = .ok (sib2, pops2)) :
    ((field.ty = .relationship ∨ field.ty = .upload ∨ field.ty = .join) →
      pops2 = pops ++ [⟨ctx.currentDepth, ctx.depth, ctx.draft, ctx.fallbackLocale,
        field, ctx.locale, ctx.overrideAccess, ctx.reqId, ctx.showHiddenFields, sib2⟩]) ∧
    (PreservesPops tf →
      field.ty ≠ .relationship → field.ty ≠ .upload → field.ty ≠ .join →
      pops2 = pops) := by
  obtain ⟨sMid, b, hts⟩ :=
    promiseF_ok_split tf ctx field i pp sp sibling pops sib2 pops2 n hname hrun
  constructor
  · intro hty3
    rcases hty3 with h | h | h <;>
      (simp only [traverseStage, h, excPure] at hts
       injection hts with hts2
       injection hts2 with hA hB
       subst hA
       rw [← hB]
       simp [populationStage, h])
  · intro hp hne1 hne2 hne3
    have hpops : pops2 = populationStage ctx field sMid pops :=
      traverseStage_preserves tf hp ctx field b _ _ sMid _ sib2 pops2 hts
    rw [hpops]
    cases hty : field.ty <;> simp_all [populationStage]

/-- A relationship field named "rel" (witness for C8). -/
def fieldRel : FieldDef := .mk (some "rel") false false [] none none .relationship

theorem c8_population_enqueue_witness :
    (JValue.obj [("rel", JValue.num 5)], ([] : List PopTask) ++
        [⟨0, 1, false, some "fr", fieldRel, some "en", false, 7, false,
          JValue.obj [("rel", JValue.num 5)]⟩]) =
      (JValue.obj [("rel", JValue.num 5)], ([] : List PopTask) ++
        [⟨0, 1, false, some "fr", fieldRel, some "en", false, 7, false,
          JValue.obj [("rel", JValue.num 5)]⟩]) ∧
    ∀ sib2 pops2,
      promiseF tfId ctxW fieldRel 0 [] [] (.obj [("rel", JValue.num 5)]) [] =
        .ok (sib2, pops2) →
      pops2 = [] ++ [⟨0, 1, false, some "fr", fieldRel, some "en", false, 7, false, sib2⟩] := by
  refine ⟨rfl, ?_⟩
  intro sib2 pops2 hrun
  exact (c8_population_enqueue tfId ctxW fieldRel "rel" 0 [] []
    (.obj [("rel", JValue.num 5)]) [] sib2 pops2 rfl hrun).1 (Or.inl rfl)

/-! ### C9: frame property for non-localized fields -/

/-- A hidden text field (C9 counterexample). -/
def fieldHidden : FieldDef := .mk (some "secret") false true [] none none .text

/-- C9 counterexample.  A non-localized hidden text field with no
afterRead hooks, no read-access predicate and no configured default
has its value removed from the sibling (when hidden fields are not
shown) by the hidden-field step — a mutation caused by none of the
four causes the claim permits (sanitization, hook write-back,
access-denial deletion, default substitution). -/
theorem c9_hidden_removal_counterexample :
    promiseF tfId ctxW fieldHidden 0 [] [] (.obj [("secret", .str "x")]) [] =
      .ok (.obj [], []) := rfl

/-- Plain leaf field types: the sanitize switch and the traversal
switch are both no-ops for them. -/
def isPlainTy : FieldTy → Bool
  | .text => true
  | .textarea => true
  | .relationship => true
  | .upload => true
  | .join => true
  | .other _ => true
  | _ => false

/-- C9 (amended).  For a non-localized, non-hidden field of a plain
leaf type, with no afterRead hooks, no read-access predicate and no
configured default — every mutating cause (hidden-field removal,
sanitization, hook write-back, access-denial deletion, default
substitution) disabled — the promise leaves the sibling container
completely unchanged: no other step of the after-read promise changes
or removes any value. -/
theorem c9_plain_field_frame (tf : TraverseFun) (ctx : Ctx) (field : FieldDef)
    (n : String) (kvs : List (String × JValue)) (i : Nat) (pp : List Seg)
    (sp : List String) (pops : List PopTask)
    (hname : field.name = some n) (hloc : field.localized = false)
    (hhid : field.hidden = false) (hhooks : field.hooks = [])
    (hacc : field.access = none) (hdef : field.defaultValue = none)
    (hty : isPlainTy field.ty = true) :
    ∃ pops2, promiseF tf ctx field i pp sp (.obj kvs) pops = .ok (.obj kvs, pops2) := by
  rcases hgp : getFieldPaths field pp sp i with ⟨fp, fsp⟩
  have hA : removeHiddenField ctx field (.obj kvs) = .ok (.obj kvs) := by
    simp [removeHiddenField, hname, hhid, excPure]
  have hB : shouldHoistLocalizedValue ctx field (.obj kvs) = .ok false := by
    cases hfl : ctx.flattenLocales <;>
      simp [shouldHoistLocalizedValue, hfl, hname, hloc, jsGet_obj, excBind_ok, excPure]
  have hC : hoistStage ctx field false (.obj kvs) = .ok (.obj kvs) := by
    simp [hoistStage, excPure]
  have hD : sanitizeStage field (.obj kvs) = .ok (.obj kvs) := by
    cases hft : field.ty <;> simp_all [sanitizeStage, isPlainTy, excPure]
  have hE : runHookChain ctx field n field.hooks (.obj kvs) = .ok (.obj kvs) := by
    simp [hhooks, runHookChain, excPure]
  have hF : accessStage ctx field n (.obj kvs) = .ok (.obj kvs, true) := by
    simp [accessStage, hacc, excPure]
  have hG : defaultStage ctx field n (.obj kvs) true = .ok (.obj kvs) := by
    simp [defaultStage, hdef, jsGet_obj, excBind_ok, excPure]
  have hH : ∀ pq, traverseStage tf ctx field false fp fsp (.obj kvs) pq = .ok (.obj kvs, pq) := by
    intro pq
    cases hft : field.ty <;> simp_all [traverseStage, isPlainTy, excPure]
  refine ⟨populationStage ctx field (.obj kvs) pops, ?_⟩
  simp only [promiseF, hgp]
  rw [hA]
  simp only [excBind_ok]
  rw [hB]
  simp only [excBind_ok]
  rw [hC]
  simp only [excBind_ok]
  rw [hD]
  simp only [excBind_ok, hname]
  cases htrh : ctx.triggerHooks with
  | false =>
    rw [if_neg (by simp [htrh])]
    simp only [excPure, excBind_ok]
    rw [hF]
    simp only [excBind_ok]
    rw [hG]
    simp only [excBind_ok, excPure]
    exact hH _
  | true =>
    rw [if_pos rfl, hE]
    simp only [excBind_ok]
    rw [hF]
    simp only [excBind_ok]
    rw [hG]
    simp only [excBind_ok, excPure]
    exact hH _

/-- A plain text field named "plain" (witness for the amended C9). -/
def fieldPlain : FieldDef := .mk (some "plain") false false [] none none .text

theorem c9_plain_field_frame_witness :
    ∃ pops2, promiseF tfId ctxW fieldPlain 0 [] []
        (.obj [("plain", .str "keep"), ("o", .num 2)]) [] =
      .ok (.obj [("plain", .str "keep"), ("o", .num 2)], pops2) := by
  exact c9_plain_field_frame tfId ctxW fieldPlain "plain"
    [("plain", .str "keep"), ("o", .num 2)] 0 [] [] [] rfl rfl rfl rfl rfl rfl rfl

/-! ### C10: group/tab recursion into a discarded fresh object -/

theorem isNonNullJsObject_of_not_objectType (v : JValue) (hv : isJsObjectType v = false) :
    isNonNullJsObject v = false := by
  cases v <;> simp_all [isJsObjectType, isNonNullJsObject, jsTypeof]

/-- C10.  For a `group` field or a named `tab` field whose slot holds
a non-object value (in the `typeof` sense, and not `undefined` — so
the group sanitizer does not replace it), with hooks and access
disabled so the slot still holds that value at recursion time: the
engine recurses into a fresh empty object whose result is never
assigned back — the promise's outcome is exactly the traversal of `{}`
for its queue effects, with the sibling container (and the original
non-object value in the slot) completely unchanged; every mutation
nested fields make is discarded. -/
theorem c10_group_tab_discard (tf : TraverseFun) (ctx : Ctx) (field : FieldDef)
    (fs : List FieldDef) (n : String) (v : JValue) (kvs : List (String × JValue))
    (i : Nat) (pp : List Seg) (sp : List String) (pops : List PopTask)
    (hname : field.name = some n)
    (hty : field.ty = .group fs ∨ field.ty = .tab fs)
    (hhid : field.hidden = false) (hhooks : field.hooks = [])
    (hacc : field.access = none)
    (hslot : lookupEntry kvs n = some v)
    (hv : isJsObjectType v = false) (hvu : v.isUndef = false) :
    promiseF tf ctx field i pp sp (.obj kvs) pops =
      (do
        let r ← tf ctx fs (pp ++ [Seg.key n]) (sp ++ [n]) (JValue.obj []) pops
        pure (JValue.obj kvs, r.2)) := by
  have hgp : getFieldPaths field pp sp i = (pp ++ [Seg.key n], sp ++ [n]) := by
    simp [getFieldPaths, hname]
  have hnn : isNonNullJsObject v = false := isNonNullJsObject_of_not_objectType v hv
  have hA : removeHiddenField ctx field (.obj kvs) = .ok (.obj kvs) := by
    simp [removeHiddenField, hname, hhid, excPure]
  have hB : shouldHoistLocalizedValue ctx field (.obj kvs) = .ok false := by
    cases hfl : ctx.flattenLocales <;>
      simp [shouldHoistLocalizedValue, hfl, hname, hslot, hnn, jsGet_obj, excBind_ok,
        excPure]
  have hC : hoistStage ctx field false (.obj kvs) = .ok (.obj kvs) := by
    simp [hoistStage, excPure]
  have hD : sanitizeStage field (.obj kvs) = .ok (.obj kvs) := by
    rcases hty with h | h <;>
      simp [sanitizeStage, h, FieldDef.nameKey, hname, jsGet_obj, excBind_ok, hslot, hvu,
        excPure]
  have hE : runHookChain ctx field n field.hooks (.obj kvs) = .ok (.obj kvs) := by
    simp [hhooks, runHookChain, excPure]
  have hF : accessStage ctx field n (.obj kvs) = .ok (.obj kvs, true) := by
    simp [accessStage, hacc, excPure]
  have hG : defaultStage ctx field n (.obj kvs) true = .ok (.obj kvs) := by
    cases hdv : field.defaultValue <;>
      simp [defaultStage, hdv, jsGet_obj, excBind_ok, hslot, hvu, excPure]
  have hP : populationStage ctx field (.obj kvs) pops = pops := by
    rcases hty with h | h <;> simp [populationStage, h]
  have hH : traverseStage tf ctx field false (pp ++ [Seg.key n]) (sp ++ [n])
      (.obj kvs) pops =
      (do
        let r ← tf ctx fs (pp ++ [Seg.key n]) (sp ++ [n]) (JValue.obj []) pops
        pure (JValue.obj kvs, r.2)) := by
    rcases hty with h | h
    · simp only [traverseStage, h, FieldDef.nameKey, hname, Option.getD_some, jsGet_obj,
        excBind_ok, hslot]
      rw [if_neg (by simp [hv])]
    · simp only [traverseStage, h, hname]
      simp only [jsGet_obj, excBind_ok, hslot]
      rw [if_neg (by simp [hv])]
  simp only [promiseF, hgp]
  rw [hA]
  simp only [excBind_ok]
  rw [hB]
  simp only [excBind_ok]
  rw [hC]
  simp only [excBind_ok]
  rw [hD]
  simp only [excBind_ok, hname]
  cases htrh : ctx.triggerHooks with
  | false =>
    rw [if_neg (by simp [htrh])]
    simp only [excPure, excBind_ok]
    rw [hF]
    simp only [excBind_ok]
    rw [hG]
    simp only [excBind_ok, excPure, hP]
    exact hH
  | true =>
    rw [if_pos rfl, hE]
    simp only [excBind_ok]
    rw [hF]
    simp only [excBind_ok]
    rw [hG]
    simp only [excBind_ok, excPure, hP]
    exact hH

/-- A group field whose nested text field has a configured default
(witness for C10). -/
def fieldGrp : FieldDef :=
  .mk (some "g") false false [] none none
    (.group [.mk (some "inner") false false [] none (some (.literal (.str "d"))) .text])

theorem c10_group_tab_discard_witness :
    promiseF (traverseFields 2) ctxW fieldGrp 0 [] [] (.obj [("g", .str "odd")]) [] =
      .ok (.obj [("g", .str "odd")], []) := by
  have h := c10_group_tab_discard (traverseFields 2) ctxW fieldGrp
    [.mk (some "inner") false false [] none (some (.literal (.str "d"))) .text]
    "g" (.str "odd") [("g", .str "odd")] 0 [] [] []
    rfl (Or.inl rfl) rfl rfl rfl rfl rfl rfl
  exact h.trans rfl
